import Mathlib

/-!
Verification of the configuration / logging utility library.

The Python sources (`utils/config.py`, `utils/logger.py`, `utils/logging.py`)
are embedded shallowly: configuration trees become the inductive `Value`,
Python dicts become insertion-ordered association lists, the placeholder
regex together with `re.sub` becomes an explicit scanner over character
lists, and the logging backend state becomes an explicit map from logger
names to handler lists.
-/

set_option maxHeartbeats 1000000

namespace UtilsService

/-- Configuration tree values: JSON/YAML scalars (null, bool, int, string),
sequences and insertion-ordered mappings, mirroring the Python values the
loader produces. -/
inductive Value where
  | vnull : Value
  | vbool : Bool → Value
  | vint : Int → Value
  | vstr : String → Value
  | vlist : List Value → Value
  | vdict : List (String × Value) → Value
deriving Inhabited

namespace Value

/-- First binding of a key in an association list (Python `dict` lookup:
keys of a parsed dict are unique, lookup finds the binding). -/
def assocFind (items : List (String × Value)) (k : String) : Option Value :=
  match items with
  | [] => none
  | (k', v) :: rest => if k' = k then some v else assocFind rest k

/-- Python `d[k] = v` on an insertion-ordered dict: replace the first binding
of `k` in place, or append a new binding at the end. -/
def setItem (items : List (String × Value)) (k : String) (v : Value) :
    List (String × Value) :=
  match items with
  | [] => [(k, v)]
  | (k', v') :: rest =>
      if k' = k then (k, v) :: rest else (k', v') :: setItem rest k v

/-- Python `x is None` test on an embedded value. -/
def isNull : Value → Bool
  | .vnull => true
  | _ => false

end Value

open Value

mutual
/-- `Config._merge_config(base, update)` (identical to `_merge_dicts`): for
each key of `update` in order, if the key is in `base` and both values are
mappings, merge recursively; otherwise the update value replaces the base
value. -/
def mergeDict (base : List (String × Value)) :
    List (String × Value) → List (String × Value)
  | [] => base
  | (k, v) :: rest => mergeDict (setItem base k (mergeValue (assocFind base k) v)) rest

/-- The value stored for one update key: recursive merge when the existing
binding and the update value are both mappings, whole-value replacement
otherwise. -/
def mergeValue : Option Value → Value → Value
  | some (.vdict bSub), .vdict uSub => .vdict (mergeDict bSub uSub)
  | _, u => u
end

/-! ### Basic association-list lemmas -/

theorem assocFind_setItem_same (items : List (String × Value)) (k : String) (v : Value) :
    assocFind (setItem items k v) k = some v := by
  induction items with
  | nil => simp [setItem, assocFind]
  | cons hd tl ih =>
      obtain ⟨k', v'⟩ := hd
      by_cases h : k' = k
      · simp [setItem, h, assocFind]
      · simp [setItem, h, assocFind, ih]

theorem assocFind_setItem_other (items : List (String × Value)) {k k' : String} (v : Value)
    (hne : k' ≠ k) : assocFind (setItem items k v) k' = assocFind items k' := by
  induction items with
  | nil => simp [setItem, assocFind, Ne.symm hne]
  | cons hd tl ih =>
      obtain ⟨k₀, v₀⟩ := hd
      by_cases h : k₀ = k
      · subst h
        simp [setItem, assocFind, Ne.symm hne]
      · simp only [setItem, if_neg h, assocFind]
        by_cases h' : k₀ = k'
        · simp [h']
        · simp [h', ih]

theorem assocFind_eq_none_iff {items : List (String × Value)} {k : String} :
    assocFind items k = none ↔ k ∉ items.map Prod.fst := by
  induction items with
  | nil => simp [assocFind]
  | cons hd tl ih =>
      obtain ⟨k₀, v₀⟩ := hd
      by_cases h : k₀ = k
      · subst h
        simp [assocFind]
      · simp [assocFind, h, ih, Ne.symm h]

/-- The pointwise description of `mergeDict`: for keys of `update` the stored
value is `mergeValue` of the two bindings, other keys keep their `base`
binding.  Requires the update dict to have unique keys, which Python dicts
guarantee. -/
theorem mergeDict_assocFind (update : List (String × Value))
    (hnodup : (update.map Prod.fst).Nodup) :
    ∀ (base : List (String × Value)) (k : String),
      assocFind (mergeDict base update) k =
        match assocFind update k with
        | some uv => some (mergeValue (assocFind base k) uv)
        | none => assocFind base k := by
  induction update with
  | nil =>
      intro base k
      simp [mergeDict, assocFind]
  | cons hd tl ih =>
      intro base k
      obtain ⟨k₀, v₀⟩ := hd
      simp only [List.map_cons, List.nodup_cons] at hnodup
      have hstep : mergeDict base ((k₀, v₀) :: tl) =
          mergeDict (setItem base k₀ (mergeValue (assocFind base k₀) v₀)) tl := by
        simp [mergeDict]
      rw [hstep, ih hnodup.2]
      by_cases hk : k = k₀
      · subst hk
        have htl : assocFind tl k = none := assocFind_eq_none_iff.2 hnodup.1
        simp [htl, assocFind, assocFind_setItem_same]
      · have hbase' : assocFind (setItem base k₀ (mergeValue (assocFind base k₀) v₀)) k =
            assocFind base k := assocFind_setItem_other _ _ hk
        simp [assocFind, Ne.symm hk, hbase']

/-! ### Placeholder syntax

`_PLACEHOLDER_PATTERN = re.compile(r"\$\{([^}:]+)(?::([^}]*))?\}")` and
`re.sub` are embedded as a deterministic leftmost scanner over character
lists.  The character classes of the regex are disjoint from the delimiters
that follow them, so the regex admits no backtracking ambiguity and the
scanner below is its exact match semantics. -/

def dollar : Char := '$'

def lbrace : Char := Char.ofNat 123

def rbrace : Char := Char.ofNat 125

def colonC : Char := ':'

/-- A character the regex allows inside the placeholder name (`[^}:]`). -/
def nameChar (c : Char) : Bool := !(c = rbrace) && !(c = colonC)

/-- A character the regex allows inside the default (`[^}]`). -/
def defChar (c : Char) : Bool := !(c = rbrace)

/-- Parse the part of a placeholder that follows the name: either the closing
brace, or a colon, a default run and the closing brace.  Returns the optional
default group and the remainder after the match. -/
def matchTail : List Char → Option (Option (List Char) × List Char)
  | [] => none
  | c :: after =>
      if c = rbrace then some (none, after)
      else if c = colonC then
        match after.dropWhile defChar with
        | [] => none
        | _ :: rem => some (some (after.takeWhile defChar), rem)
      else none

/-- Try to match the placeholder pattern at the head of the input; on success
return the name group, the optional default group, and the rest of the input
after the match. -/
def matchPH : List Char → Option (List Char × Option (List Char) × List Char)
  | c₁ :: c₂ :: rest =>
      if c₁ = dollar ∧ c₂ = lbrace then
        if rest.takeWhile nameChar = [] then none
        else
          match matchTail (rest.dropWhile nameChar) with
          | some (d, rem) => some (rest.takeWhile nameChar, d, rem)
          | none => none
      else none
  | _ => none

/-- One segment of a scanned string: a literal run of characters, or one
recognized placeholder with its name and optional default. -/
inductive Seg where
  | lit : List Char → Seg
  | ph : List Char → Option (List Char) → Seg
deriving DecidableEq

/-- Prepend a character to the first literal segment (so that literal gaps
between recognized placeholders stay contiguous). -/
def consLit (c : Char) : List Seg → List Seg
  | .lit s :: rest => .lit (c :: s) :: rest
  | segs => .lit [c] :: segs

theorem matchTail_length {t : List Char} {d : Option (List Char)} {rem : List Char}
    (h : matchTail t = some (d, rem)) : rem.length < t.length := by
  match t with
  | [] => simp [matchTail] at h
  | c :: after =>
      simp only [matchTail] at h
      by_cases hcr : c = rbrace
      · simp only [if_pos hcr, Option.some.injEq, Prod.mk.injEq] at h
        rw [← h.2]
        simp
      · rw [if_neg hcr] at h
        by_cases hcc : c = colonC
        · rw [if_pos hcc] at h
          have hdw2 : (after.dropWhile defChar).length ≤ after.length :=
            List.Sublist.length_le (List.dropWhile_sublist _)
          cases hd2 : after.dropWhile defChar with
          | nil => rw [hd2] at h; simp at h
          | cons c₀ rem₀ =>
              rw [hd2] at h
              rw [hd2] at hdw2
              simp only [Option.some.injEq, Prod.mk.injEq] at h
              rw [← h.2]
              simp only [List.length_cons] at hdw2 ⊢
              omega
        · simp [hcc] at h

theorem matchPH_length {l : List Char} {n : List Char} {d : Option (List Char)}
    {rem : List Char} (h : matchPH l = some (n, d, rem)) : rem.length < l.length := by
  match l with
  | [] => simp [matchPH] at h
  | [c] => simp [matchPH] at h
  | c₁ :: c₂ :: rest =>
      simp only [matchPH] at h
      by_cases hc : c₁ = dollar ∧ c₂ = lbrace
      · rw [if_pos hc] at h
        by_cases hname : rest.takeWhile nameChar = []
        · simp [hname] at h
        · rw [if_neg hname] at h
          cases hmt : matchTail (rest.dropWhile nameChar) with
          | none => rw [hmt] at h; simp at h
          | some pr =>
              obtain ⟨d₀, rem₀⟩ := pr
              rw [hmt] at h
              simp only [Option.some.injEq, Prod.mk.injEq] at h
              have h1 : rem₀.length < (rest.dropWhile nameChar).length :=
                matchTail_length hmt
              have h2 : (rest.dropWhile nameChar).length ≤ rest.length :=
                List.Sublist.length_le (List.dropWhile_sublist _)
              rw [← h.2.2]
              simp only [List.length_cons]
              omega
      · rw [if_neg hc] at h
        simp at h

/-- The scanner underlying `re.sub` with explicit fuel (any fuel at least the
input length computes the scan, see `scanPHAux_fuel_irrel`): find the
leftmost match, emit it as a placeholder segment, continue after it;
characters where no match starts are literal. -/
def scanPHAux : Nat → List Char → List Seg
  | 0, _ => []
  | _, [] => []
  | fuel + 1, c :: rest =>
      match matchPH (c :: rest) with
      | some (n, d, rem) => .ph n d :: scanPHAux fuel rem
      | none => consLit c (scanPHAux fuel rest)

def scanPH (l : List Char) : List Seg := scanPHAux l.length l

theorem scanPHAux_fuel_irrel :
    ∀ (f₁ f₂ : Nat) (l : List Char), l.length ≤ f₁ → l.length ≤ f₂ →
      scanPHAux f₁ l = scanPHAux f₂ l := by
  intro f₁
  induction f₁ with
  | zero =>
      intro f₂ l h₁ _
      have : l = [] := List.length_eq_zero.1 (Nat.le_zero.1 h₁)
      subst this
      cases f₂ <;> rfl
  | succ f ih =>
      intro f₂ l h₁ h₂
      cases l with
      | nil => cases f₂ <;> rfl
      | cons c rest =>
          cases f₂ with
          | zero => simp at h₂
          | succ g =>
              simp only [List.length_cons, Nat.succ_le_succ_iff] at h₁ h₂
              show scanPHAux (f + 1) (c :: rest) = scanPHAux (g + 1) (c :: rest)
              simp only [scanPHAux]
              cases hm : matchPH (c :: rest) with
              | some pr =>
                  obtain ⟨n, d, rem⟩ := pr
                  have hrem : rem.length < rest.length + 1 := by
                    have := matchPH_length hm
                    simpa using this
                  have hr₁ : rem.length ≤ f := by omega
                  have hr₂ : rem.length ≤ g := by omega
                  simp [ih g rem hr₁ hr₂]
              | none =>
                  simp [ih g rest h₁ h₂]

/-- The defining one-step equation of the scanner. -/
theorem scanPH_eq (l : List Char) :
    scanPH l =
      match matchPH l with
      | some (n, d, rem) => Seg.ph n d :: scanPH rem
      | none =>
          match l with
          | [] => []
          | c :: rest => consLit c (scanPH rest) := by
  cases l with
  | nil => rfl
  | cons c rest =>
      show scanPHAux (rest.length + 1) (c :: rest) = _
      simp only [scanPHAux]
      cases hm : matchPH (c :: rest) with
      | some pr =>
          obtain ⟨n, d, rem⟩ := pr
          have hrem : rem.length ≤ rest.length := by
            have := matchPH_length hm
            simp only [List.length_cons] at this
            omega
          simp only [scanPHAux_fuel_irrel rest.length rem.length rem hrem (Nat.le_refl _)]
          rfl
      | none => rfl

/-! ### Python helpers used by the resolver -/

/-- Python string quoting as used by `repr` on the common case: quote with a
single quote, or a double quote when the text holds a single quote and no
double quote. -/
def squote : Char := Char.ofNat 39

def dquote : Char := '"'

def pyEscapeChar (q : Char) (c : Char) : List Char :=
  if c = Char.ofNat 92 then [Char.ofNat 92, Char.ofNat 92]
  else if c = q then [Char.ofNat 92, q]
  else if c = Char.ofNat 10 then [Char.ofNat 92, 'n']
  else if c = Char.ofNat 13 then [Char.ofNat 92, 'r']
  else if c = Char.ofNat 9 then [Char.ofNat 92, 't']
  else [c]

def pyQuote (s : String) : String :=
  let q : Char := if s.contains squote && !(s.contains dquote) then dquote else squote
  String.mk (q :: ((s.data.map (pyEscapeChar q)).flatten ++ [q]))

def joinComma : List String → String
  | [] => ""
  | [s] => s
  | s :: rest => s ++ ", " ++ joinComma rest

mutual
/-- Python `repr` on embedded values (used by `str` inside containers). -/
def pyRepr : Value → String
  | .vnull => "None"
  | .vbool true => "True"
  | .vbool false => "False"
  | .vint n => toString n
  | .vstr s => pyQuote s
  | .vlist xs => "[" ++ joinComma (pyReprList xs) ++ "]"
  | .vdict xs => "\x7b" ++ joinComma (pyReprDict xs) ++ "\x7d"

def pyReprList : List Value → List String
  | [] => []
  | v :: rest => pyRepr v :: pyReprList rest

def pyReprDict : List (String × Value) → List String
  | [] => []
  | (k, v) :: rest => (pyQuote k ++ ": " ++ pyRepr v) :: pyReprDict rest
end

/-- Python `str` on embedded values: a string is itself, everything else
prints as its `repr`-style form. -/
def pyStr : Value → String
  | .vstr s => s
  | v => pyRepr v

/-- Python `int(part)` on a path segment: optional surrounding spaces, an
optional sign, then a non-empty digit run; anything else raises `ValueError`
(`none` here). -/
def parseDigitsAux (acc : Nat) : List Char → Option Nat
  | [] => some acc
  | c :: rest =>
      if c.isDigit then parseDigitsAux (acc * 10 + (c.toNat - 48)) rest else none

def parseDigits : List Char → Option Nat
  | [] => none
  | cs => parseDigitsAux 0 cs

def trimSpaces (s : List Char) : List Char :=
  ((s.dropWhile (· = ' ')).reverse.dropWhile (· = ' ')).reverse

def pyInt (s : List Char) : Option Int :=
  match trimSpaces s with
  | '-' :: ds => (parseDigits ds).map (fun n => -(n : Int))
  | '+' :: ds => (parseDigits ds).map (fun n => (n : Int))
  | ds => (parseDigits ds).map (fun n => (n : Int))

/-- Python `path.split(".")`: at least one piece, empty pieces preserved. -/
def consHead (c : Char) : List (List Char) → List (List Char)
  | [] => [[c]]
  | p :: ps => (c :: p) :: ps

def splitDots : List Char → List (List Char)
  | [] => [[]]
  | c :: rest => if c = '.' then [] :: splitDots rest else consHead c (splitDots rest)

/-! ### `_get_value_from_path` -/

/-- The traversal loop of `_get_value_from_path`: dict segments go through
key lookup, list segments through `int(part)` indexing with an explicit
bounds check, everything else ends the walk with `None` (`vnull`). -/
def getPathGo : Value → List (List Char) → Value
  | cur, [] => cur
  | cur, p :: ps =>
      match cur with
      | .vdict items =>
          match assocFind items (String.mk p) with
          | some v => getPathGo v ps
          | none => .vnull
      | .vlist xs =>
          match pyInt p with
          | some idx =>
              if h : 0 ≤ idx ∧ idx.toNat < xs.length then
                getPathGo (xs.get ⟨idx.toNat, h.2⟩) ps
              else .vnull
          | none => .vnull
      | _ => .vnull

/-- `_get_value_from_path(root, path)`.  Python returns the object `None`
both for a missing path and for a stored null, so the embedded result is a
`Value` with `vnull` playing the role of `None`. -/
def getFromPath (root : Value) (path : List Char) : Value :=
  if root.isNull then .vnull
  else getPathGo root (splitDots path)

/-! ### `resolve_placeholders` -/

/-- The environment: an association list of exact variable names. -/
def envFind : List (String × String) → String → Option String
  | [], _ => none
  | (k, v) :: rest, key => if k = key then some v else envFind rest key

/-- The `replacer` closure of `resolve_placeholders`: environment first, then
dot-path lookup in the root tree (`None` results count as not found), then
the default when the default group matched, then the empty string. -/
def resolveKey (env : List (String × String)) (root : Value) (name : List Char)
    (d : Option (List Char)) : List Char :=
  match envFind env (String.mk name) with
  | some v => v.data
  | none =>
      let rootMatch := getFromPath root name
      if rootMatch.isNull = false then
        (if rootMatch.isNull = true then "" else pyStr rootMatch).data
      else
        match d with
        | some dd => dd
        | none => []

/-- Rebuild a scanned string with every recognized placeholder replaced by
its `resolveKey` value (the substitution `re.sub` performs). -/
def renderSub (env : List (String × String)) (root : Value) : List Seg → List Char
  | [] => []
  | .lit s :: rest => s ++ renderSub env root rest
  | .ph n dd :: rest => resolveKey env root n dd ++ renderSub env root rest

def substChars (env : List (String × String)) (root : Value) (l : List Char) : List Char :=
  renderSub env root (scanPH l)

def substStr (env : List (String × String)) (root : Value) (s : String) : String :=
  String.mk (substChars env root s.data)

mutual
/-- The structural walk of `resolve_placeholders`: strings are substituted,
mappings and sequences are walked, other scalars pass through; `root` is
threaded unchanged. -/
def resolveValue (env : List (String × String)) (root : Value) : Value → Value
  | .vdict items => .vdict (resolveDict env root items)
  | .vlist xs => .vlist (resolveList env root xs)
  | .vstr s => .vstr (substStr env root s)
  | v => v

def resolveList (env : List (String × String)) (root : Value) : List Value → List Value
  | [] => []
  | v :: rest => resolveValue env root v :: resolveList env root rest

def resolveDict (env : List (String × String)) (root : Value) :
    List (String × Value) → List (String × Value)
  | [] => []
  | (k, v) :: rest => (k, resolveValue env root v) :: resolveDict env root rest
end

/-- `resolve_placeholders(value, root, env)`: `root_value` is the value
itself when no root is supplied. -/
def resolvePlaceholders (v : Value) (root : Option Value) (env : List (String × String)) :
    Value :=
  resolveValue env (root.getD v) v

/-! ### Scanner correctness: segmentation and exhaustiveness -/

/-- The original text of the part of a placeholder after the name. -/
def tailText : Option (List Char) → List Char
  | none => [rbrace]
  | some dd => colonC :: (dd ++ [rbrace])

/-- The original text of a recognized placeholder. -/
def phText (n : List Char) (d : Option (List Char)) : List Char :=
  dollar :: lbrace :: (n ++ tailText d)

/-- Rebuild the original string from its scan. -/
def renderOrig : List Seg → List Char
  | [] => []
  | .lit s :: rest => s ++ renderOrig rest
  | .ph n d :: rest => phText n d ++ renderOrig rest

theorem dropWhile_head_false {p : Char → Bool} :
    ∀ {l : List Char} {c : Char} {cs : List Char}, l.dropWhile p = c :: cs → p c = false := by
  intro l
  induction l with
  | nil => intro c cs h; simp [List.dropWhile] at h
  | cons a as ih =>
      intro c cs h
      by_cases hp : p a
      · rw [List.dropWhile_cons, if_pos hp] at h
        exact ih h
      · rw [List.dropWhile_cons, if_neg hp] at h
        cases h
        simpa using hp

theorem takeWhile_append_left {p : Char → Bool} :
    ∀ {a : List Char}, a.dropWhile p ≠ [] → ∀ b, (a ++ b).takeWhile p = a.takeWhile p := by
  intro a
  induction a with
  | nil => intro h; simp [List.dropWhile] at h
  | cons c as ih =>
      intro h b
      by_cases hp : p c
      · rw [List.dropWhile_cons, if_pos hp] at h
        simp only [List.cons_append, List.takeWhile_cons, hp]
        rw [ih h b]
      · simp [List.takeWhile_cons, hp]

theorem dropWhile_append_left {p : Char → Bool} :
    ∀ {a : List Char}, a.dropWhile p ≠ [] → ∀ b, (a ++ b).dropWhile p = a.dropWhile p ++ b := by
  intro a
  induction a with
  | nil => intro h; simp [List.dropWhile] at h
  | cons c as ih =>
      intro h b
      by_cases hp : p c
      · rw [List.dropWhile_cons, if_pos hp] at h
        simp only [List.cons_append, List.dropWhile_cons, hp, if_pos]
        rw [ih h b]
      · simp [List.dropWhile_cons, hp]

theorem matchTail_append {t u : List Char} {d : Option (List Char)} {rem : List Char}
    (h : matchTail t = some (d, rem)) : matchTail (t ++ u) = some (d, rem ++ u) := by
  cases t with
  | nil => simp [matchTail] at h
  | cons c after =>
      simp only [matchTail] at h
      by_cases hcr : c = rbrace
      · simp only [if_pos hcr, Option.some.injEq, Prod.mk.injEq] at h
        simp only [List.cons_append, matchTail, if_pos hcr]
        rw [← h.1, ← h.2]
      · rw [if_neg hcr] at h
        by_cases hcc : c = colonC
        · rw [if_pos hcc] at h
          cases hd : after.dropWhile defChar with
          | nil => rw [hd] at h; simp at h
          | cons x xs =>
              rw [hd] at h
              simp only [Option.some.injEq, Prod.mk.injEq] at h
              have hne : after.dropWhile defChar ≠ [] := by rw [hd]; simp
              simp only [List.cons_append, matchTail, if_neg hcr, if_pos hcc]
              rw [dropWhile_append_left hne u, hd]
              simp only [List.cons_append]
              rw [takeWhile_append_left hne u]
              rw [← h.1, ← h.2]
        · simp [hcc] at h

theorem matchPH_append {t u : List Char} {n : List Char} {d : Option (List Char)}
    {rem : List Char} (h : matchPH t = some (n, d, rem)) :
    matchPH (t ++ u) = some (n, d, rem ++ u) := by
  match t with
  | [] => simp [matchPH] at h
  | [c] => simp [matchPH] at h
  | c₁ :: c₂ :: rest =>
      simp only [matchPH] at h
      by_cases hc : c₁ = dollar ∧ c₂ = lbrace
      · rw [if_pos hc] at h
        by_cases hname : rest.takeWhile nameChar = []
        · simp [hname] at h
        · rw [if_neg hname] at h
          cases hmt : matchTail (rest.dropWhile nameChar) with
          | none => rw [hmt] at h; simp at h
          | some pr =>
              obtain ⟨d₀, rem₀⟩ := pr
              rw [hmt] at h
              simp only [Option.some.injEq, Prod.mk.injEq] at h
              have hdne : rest.dropWhile nameChar ≠ [] := by
                intro hnil
                rw [hnil] at hmt
                simp [matchTail] at hmt
              show matchPH (c₁ :: c₂ :: (rest ++ u)) = _
              simp only [matchPH, if_pos hc]
              rw [takeWhile_append_left hdne u, if_neg hname]
              rw [dropWhile_append_left hdne u, matchTail_append hmt]
              rw [← h.1, ← h.2.1, ← h.2.2]
      · rw [if_neg hc] at h
        simp at h

theorem matchTail_text {t : List Char} {d : Option (List Char)} {rem : List Char}
    (h : matchTail t = some (d, rem)) : t = tailText d ++ rem := by
  cases t with
  | nil => simp [matchTail] at h
  | cons c after =>
      simp only [matchTail] at h
      by_cases hcr : c = rbrace
      · simp only [if_pos hcr, Option.some.injEq, Prod.mk.injEq] at h
        rw [← h.1, ← h.2, hcr]
        simp [tailText]
      · rw [if_neg hcr] at h
        by_cases hcc : c = colonC
        · rw [if_pos hcc] at h
          cases hd : after.dropWhile defChar with
          | nil => rw [hd] at h; simp at h
          | cons x xs =>
              rw [hd] at h
              simp only [Option.some.injEq, Prod.mk.injEq] at h
              have hx : defChar x = false := dropWhile_head_false hd
              have hxr : x = rbrace := by
                simpa [defChar] using hx
              have hsplit : after.takeWhile defChar ++ after.dropWhile defChar = after :=
                List.takeWhile_append_dropWhile defChar after
              have hafter : after = after.takeWhile defChar ++ (rbrace :: xs) := by
                conv_lhs => rw [← hsplit]
                rw [hd, hxr]
              rw [← h.1, ← h.2, hcc]
              conv_lhs => rw [hafter]
              simp [tailText]
        · simp [hcc] at h

theorem matchPH_text {l : List Char} {n : List Char} {d : Option (List Char)}
    {rem : List Char} (h : matchPH l = some (n, d, rem)) : l = phText n d ++ rem := by
  match l with
  | [] => simp [matchPH] at h
  | [c] => simp [matchPH] at h
  | c₁ :: c₂ :: rest =>
      simp only [matchPH] at h
      by_cases hc : c₁ = dollar ∧ c₂ = lbrace
      · rw [if_pos hc] at h
        by_cases hname : rest.takeWhile nameChar = []
        · simp [hname] at h
        · rw [if_neg hname] at h
          cases hmt : matchTail (rest.dropWhile nameChar) with
          | none => rw [hmt] at h; simp at h
          | some pr =>
              obtain ⟨d₀, rem₀⟩ := pr
              rw [hmt] at h
              simp only [Option.some.injEq, Prod.mk.injEq] at h
              have hsplit : rest.takeWhile nameChar ++ rest.dropWhile nameChar = rest :=
                List.takeWhile_append_dropWhile nameChar rest
              have htext : rest.dropWhile nameChar = tailText d₀ ++ rem₀ := matchTail_text hmt
              have hrest : rest = rest.takeWhile nameChar ++ (tailText d₀ ++ rem₀) := by
                conv_lhs => rw [← hsplit]
                rw [htext]
              rw [← h.1, ← h.2.1, ← h.2.2, hc.1, hc.2]
              conv_lhs => rw [hrest]
              simp [phText]
      · rw [if_neg hc] at h
        simp at h

theorem renderOrig_consLit (c : Char) (segs : List Seg) :
    renderOrig (consLit c segs) = c :: renderOrig segs := by
  match segs with
  | [] => rfl
  | .lit s :: rest => simp [consLit, renderOrig]
  | .ph n d :: rest => simp [consLit, renderOrig]

theorem scanPH_renderOrig_aux :
    ∀ (fuel : Nat) (l : List Char), l.length ≤ fuel → renderOrig (scanPH l) = l := by
  intro fuel
  induction fuel with
  | zero =>
      intro l h
      have : l = [] := List.length_eq_zero.1 (Nat.le_zero.1 h)
      subst this
      rfl
  | succ f ih =>
      intro l hlen
      rw [scanPH_eq l]
      cases hm : matchPH l with
      | some pr =>
          obtain ⟨n, d, rem⟩ := pr
          have hrem : rem.length ≤ f := by
            have := matchPH_length hm
            omega
          simp only [renderOrig]
          rw [ih rem hrem, ← matchPH_text hm]
      | none =>
          cases l with
          | nil => rfl
          | cons c rest =>
              have hr : rest.length ≤ f := by
                simp only [List.length_cons] at hlen
                omega
              simp only [renderOrig_consLit, ih rest hr]

/-- A scan reconstructs exactly the original string. -/
theorem scanPH_renderOrig (l : List Char) : renderOrig (scanPH l) = l :=
  scanPH_renderOrig_aux l.length l (Nat.le_refl _)

theorem scanPH_gap_aux :
    ∀ (fuel : Nat) (l : List Char), l.length ≤ fuel →
      ∀ g, Seg.lit g ∈ scanPH l → ∀ i, matchPH (List.drop i g) = none := by
  intro fuel
  induction fuel with
  | zero =>
      intro l h g hg i
      have : l = [] := List.length_eq_zero.1 (Nat.le_zero.1 h)
      subst this
      simp [scanPH, scanPHAux] at hg
  | succ f ih =>
      intro l hlen g hg i
      rw [scanPH_eq l] at hg
      cases hm : matchPH l with
      | some pr =>
          obtain ⟨n, d, rem⟩ := pr
          rw [hm] at hg
          dsimp only at hg
          simp only [List.mem_cons] at hg
          rcases hg with hg | hg
          · cases hg
          · have hrem : rem.length ≤ f := by
              have := matchPH_length hm
              omega
            exact ih rem hrem g hg i
      | none =>
          rw [hm] at hg
          cases l with
          | nil => simp at hg
          | cons c rest =>
              dsimp only at hg
              have hr : rest.length ≤ f := by
                simp only [List.length_cons] at hlen
                omega
              cases hsc : scanPH rest with
              | nil =>
                  rw [hsc] at hg
                  simp only [consLit, List.mem_singleton] at hg
                  cases hg
                  cases i with
                  | zero =>
                      show matchPH [c] = none
                      rfl
                  | succ j =>
                      show matchPH (List.drop j []) = none
                      simp [matchPH]
              | cons s segs =>
                  rw [hsc] at hg
                  cases s with
                  | lit g₀ =>
                      simp only [consLit, List.mem_cons] at hg
                      rcases hg with hg | hg
                      · cases hg
                        cases i with
                        | zero =>
                            show matchPH (c :: g₀) = none
                            by_contra hne
                            cases hm0 : matchPH (c :: g₀) with
                            | none => exact hne hm0
                            | some pr0 =>
                                obtain ⟨n₀, d₀, rem₀⟩ := pr0
                                have happ := matchPH_append (u := renderOrig segs) hm0
                                have hrest : (c :: g₀) ++ renderOrig segs = c :: rest := by
                                  have h1 : renderOrig (scanPH rest) = rest := scanPH_renderOrig rest
                                  rw [hsc] at h1
                                  simp only [renderOrig] at h1
                                  simp [h1]
                                rw [hrest] at happ
                                rw [hm] at happ
                                cases happ
                        | succ j =>
                            show matchPH (List.drop j g₀) = none
                            exact ih rest hr g₀ (by rw [hsc]; exact List.mem_cons_self _ _) j
                      · exact ih rest hr g (by rw [hsc]; exact List.mem_cons_of_mem _ hg) i
                  | ph n₀ d₀ =>
                      simp only [consLit, List.mem_cons] at hg
                      rcases hg with hg | hg | hg
                      · cases hg
                        cases i with
                        | zero =>
                            show matchPH [c] = none
                            rfl
                        | succ j =>
                            show matchPH (List.drop j []) = none
                            simp [matchPH]
                      · cases hg
                      · refine ih rest hr g ?_ i
                        rw [hsc]
                        exact List.mem_cons_of_mem _ hg

/-- Exhaustiveness of the scan: no occurrence of the placeholder pattern
starts inside a literal gap left by the scanner. -/
theorem scanPH_gap (l : List Char) {g : List Char} (hg : Seg.lit g ∈ scanPH l)
    (i : Nat) : matchPH (List.drop i g) = none :=
  scanPH_gap_aux l.length l (Nat.le_refl _) g hg i

/-! ### String leaves of a tree -/

mutual
/-- All string leaves of a value, in walk order. -/
def stringLeaves : Value → List String
  | .vnull => []
  | .vbool _ => []
  | .vint _ => []
  | .vstr s => [s]
  | .vlist xs => stringLeavesL xs
  | .vdict items => stringLeavesD items

def stringLeavesL : List Value → List String
  | [] => []
  | v :: rest => stringLeaves v ++ stringLeavesL rest

def stringLeavesD : List (String × Value) → List String
  | [] => []
  | (_, v) :: rest => stringLeaves v ++ stringLeavesD rest
end

mutual
/-- The resolver rewrites exactly the string leaves, each through the
substitution, leaving the tree shape unchanged. -/
theorem resolveValue_leaves (env : List (String × String)) (root : Value) :
    ∀ v, stringLeaves (resolveValue env root v) = (stringLeaves v).map (substStr env root)
  | .vnull => by simp [resolveValue, stringLeaves]
  | .vbool b => by simp [resolveValue, stringLeaves]
  | .vint n => by simp [resolveValue, stringLeaves]
  | .vstr s => by simp [resolveValue, stringLeaves]
  | .vlist xs => by
      simp only [resolveValue, stringLeaves]
      exact resolveList_leaves env root xs
  | .vdict items => by
      simp only [resolveValue, stringLeaves]
      exact resolveDict_leaves env root items

theorem resolveList_leaves (env : List (String × String)) (root : Value) :
    ∀ xs, stringLeavesL (resolveList env root xs) = (stringLeavesL xs).map (substStr env root)
  | [] => by simp [resolveList, stringLeavesL]
  | v :: rest => by
      simp only [resolveList, stringLeavesL, List.map_append]
      rw [resolveValue_leaves env root v, resolveList_leaves env root rest]

theorem resolveDict_leaves (env : List (String × String)) (root : Value) :
    ∀ items, stringLeavesD (resolveDict env root items) =
      (stringLeavesD items).map (substStr env root)
  | [] => by simp [resolveDict, stringLeavesD]
  | (k, v) :: rest => by
      simp only [resolveDict, stringLeavesD, List.map_append]
      rw [resolveValue_leaves env root v, resolveDict_leaves env root rest]
end

theorem isNull_eq_false_iff {v : Value} : v.isNull = false ↔ v ≠ .vnull := by
  cases v <;> simp [Value.isNull]

/-- C1: for every string leaf containing a recognized placeholder
(name possibly a dot-separated path with numeric segments indexing
sequences), the resolver substitutes with first-match-wins precedence:
(1) the environment value when the name is an exact environment key, else
(2) the string form of the dot-path lookup against the original root tree
(missing keys, bad indices and stored nulls all surface as the null result
of `getFromPath`), else (3) the default literal when the default token is
present, else (4) the empty string. -/
theorem c1_placeholder_precedence (env : List (String × String)) (root : Value) :
    (∀ v, stringLeaves (resolveValue env root v) = (stringLeaves v).map (substStr env root))
    ∧ (∀ s, substStr env root s = String.mk (renderSub env root (scanPH s.data)))
    ∧ (∀ name d ev, envFind env (String.mk name) = some ev →
        resolveKey env root name d = ev.data)
    ∧ (∀ name d, envFind env (String.mk name) = none →
        getFromPath root name ≠ .vnull →
        resolveKey env root name d = (pyStr (getFromPath root name)).data)
    ∧ (∀ name dd, envFind env (String.mk name) = none →
        getFromPath root name = .vnull →
        resolveKey env root name (some dd) = dd)
    ∧ (∀ name, envFind env (String.mk name) = none →
        getFromPath root name = .vnull →
        resolveKey env root name none = []) := by
  refine ⟨resolveValue_leaves env root, fun s => rfl, ?_, ?_, ?_, ?_⟩
  · intro name d ev hev
    simp [resolveKey, hev]
  · intro name d henv hne
    have hfalse : (getFromPath root name).isNull = false := isNull_eq_false_iff.2 hne
    simp [resolveKey, henv, hfalse]
  · intro name dd henv hnull
    have htrue : (getFromPath root name).isNull = true := by rw [hnull]; rfl
    simp [resolveKey, henv, htrue]
  · intro name henv hnull
    have htrue : (getFromPath root name).isNull = true := by rw [hnull]; rfl
    simp [resolveKey, henv, htrue]

/-- Concrete instantiation of `c1_placeholder_precedence`: each stage of the
cascade exercised at an explicit input. -/
theorem c1_placeholder_precedence_witness :
    resolveKey [("FOO", "env_val")] (Value.vdict [("FOO", .vstr "tree_val")])
        "FOO".data none = "env_val".data
    ∧ resolveKey [] (Value.vdict [("foo", .vstr "tree_val")]) "foo".data none
        = "tree_val".data
    ∧ resolveKey [] (Value.vdict []) "APP_ENV".data (some "dev".data) = "dev".data
    ∧ resolveKey [] (Value.vdict []) "UNKNOWN".data none = [] := by
  refine ⟨?_, ?_, ?_, ?_⟩
  · exact (c1_placeholder_precedence [("FOO", "env_val")]
      (Value.vdict [("FOO", .vstr "tree_val")])).2.2.1 "FOO".data none "env_val" rfl
  · have h := (c1_placeholder_precedence []
      (Value.vdict [("foo", .vstr "tree_val")])).2.2.2.1 "foo".data none rfl
      (isNull_eq_false_iff.1 rfl)
    exact h.trans rfl
  · exact (c1_placeholder_precedence [] (Value.vdict [])).2.2.2.2.1 "APP_ENV".data
      "dev".data rfl rfl
  · exact (c1_placeholder_precedence [] (Value.vdict [])).2.2.2.2.2 "UNKNOWN".data rfl rfl

/-- C2: every string leaf of the resolved tree is the image of an input leaf
in which every placeholder the scanner recognized has been replaced by its
substitution value (a string, possibly empty); the segmentation covers the
whole leaf, and no occurrence of the placeholder pattern starts inside a
literal gap, so every occurrence that was syntactically valid at input time
outside an already-recognized span has been substituted. -/
theorem c2_recognized_placeholders_substituted
    (env : List (String × String)) (root : Value) (v : Value) (s : String)
    (hs : s ∈ stringLeaves (resolveValue env root v)) :
    ∃ s₀, s₀ ∈ stringLeaves v
      ∧ s = String.mk (renderSub env root (scanPH s₀.data))
      ∧ renderOrig (scanPH s₀.data) = s₀.data
      ∧ ∀ g, Seg.lit g ∈ scanPH s₀.data → ∀ i, matchPH (List.drop i g) = none := by
  rw [resolveValue_leaves env root v] at hs
  obtain ⟨s₀, hmem, heq⟩ := List.mem_map.1 hs
  refine ⟨s₀, hmem, ?_, scanPH_renderOrig s₀.data, fun g hg i => scanPH_gap s₀.data hg i⟩
  rw [← heq]
  rfl

/-- Concrete instantiation of `c2_recognized_placeholders_substituted`. -/
theorem c2_recognized_placeholders_substituted_witness :
    ∃ s₀, s₀ ∈ stringLeaves (Value.vdict [("tag", .vstr "v-${UNKNOWN:1.0}")])
      ∧ "v-1.0" = String.mk (renderSub [] (Value.vdict [("tag", .vstr "v-${UNKNOWN:1.0}")])
            (scanPH s₀.data))
      ∧ renderOrig (scanPH s₀.data) = s₀.data
      ∧ ∀ g, Seg.lit g ∈ scanPH s₀.data → ∀ i, matchPH (List.drop i g) = none := by
  refine c2_recognized_placeholders_substituted []
      (Value.vdict [("tag", .vstr "v-${UNKNOWN:1.0}")])
      (Value.vdict [("tag", .vstr "v-${UNKNOWN:1.0}")]) "v-1.0" ?_
  simp [resolveValue, resolveDict, stringLeaves, stringLeavesD, substStr]
  decide

/-- C4: for every pair of trees, merging satisfies: a key of `update` whose
values are mappings on both sides is merged recursively; in every other case
the update value replaces the base value entirely (no list concatenation, no
partial merge); keys absent from `update` keep their base binding. -/
theorem c4_merge_semantics (base update : List (String × Value))
    (hnodup : (update.map Prod.fst).Nodup) :
    (∀ k, assocFind (mergeDict base update) k =
        match assocFind update k with
        | some uv => some (mergeValue (assocFind base k) uv)
        | none => assocFind base k)
    ∧ (∀ bSub uSub, mergeValue (some (.vdict bSub)) (.vdict uSub) =
        .vdict (mergeDict bSub uSub))
    ∧ (∀ bv u, (∀ uSub, u ≠ .vdict uSub) → mergeValue (some bv) u = u)
    ∧ (∀ bOpt u, (∀ bSub, bOpt ≠ some (.vdict bSub)) → mergeValue bOpt u = u) := by
  refine ⟨mergeDict_assocFind update hnodup base, ?_, ?_, ?_⟩
  · intro bSub uSub
    simp [mergeValue]
  · intro bv u hu
    cases bv <;> cases u <;> first
      | exact absurd rfl (hu _)
      | simp [mergeValue]
  · intro bOpt u hb
    match bOpt, u with
    | none, u => cases u <;> simp [mergeValue]
    | some .vnull, u => cases u <;> simp [mergeValue]
    | some (.vbool b), u => cases u <;> simp [mergeValue]
    | some (.vint n), u => cases u <;> simp [mergeValue]
    | some (.vstr s), u => cases u <;> simp [mergeValue]
    | some (.vlist xs), u => cases u <;> simp [mergeValue]
    | some (.vdict items), u => exact absurd rfl (hb items)

/-- Concrete instantiation of `c4_merge_semantics`: nested-mapping keys merge
recursively, scalar and list collisions are replaced whole. -/
theorem c4_merge_semantics_witness :
    (([("a", Value.vdict [("y", Value.vint 3)]), ("b", Value.vint 9),
        ("c", Value.vlist [Value.vint 7])].map Prod.fst).Nodup)
    ∧ ((∀ k, assocFind (mergeDict
          [("a", Value.vdict [("x", Value.vint 1)]), ("b", Value.vint 2),
            ("c", Value.vlist [Value.vint 5, Value.vint 6])]
          [("a", Value.vdict [("y", Value.vint 3)]), ("b", Value.vint 9),
            ("c", Value.vlist [Value.vint 7])]) k =
        match assocFind [("a", Value.vdict [("y", Value.vint 3)]), ("b", Value.vint 9),
            ("c", Value.vlist [Value.vint 7])] k with
        | some uv => some (mergeValue (assocFind
            [("a", Value.vdict [("x", Value.vint 1)]), ("b", Value.vint 2),
              ("c", Value.vlist [Value.vint 5, Value.vint 6])] k) uv)
        | none => assocFind [("a", Value.vdict [("x", Value.vint 1)]), ("b", Value.vint 2),
            ("c", Value.vlist [Value.vint 5, Value.vint 6])] k)
      ∧ (∀ bSub uSub, mergeValue (some (.vdict bSub)) (.vdict uSub) =
          .vdict (mergeDict bSub uSub))
      ∧ (∀ bv u, (∀ uSub, u ≠ .vdict uSub) → mergeValue (some bv) u = u)
      ∧ (∀ bOpt u, (∀ bSub, bOpt ≠ some (.vdict bSub)) → mergeValue bOpt u = u)) :=
  ⟨by decide, c4_merge_semantics
    [("a", Value.vdict [("x", Value.vint 1)]), ("b", Value.vint 2),
      ("c", Value.vlist [Value.vint 5, Value.vint 6])]
    [("a", Value.vdict [("y", Value.vint 3)]), ("b", Value.vint 9),
      ("c", Value.vlist [Value.vint 7])] (by decide)⟩

/-! ### File discovery order (`Config._load_config`)

`config_files = sorted(list(glob("*.json")) + list(glob("*.yaml")) + ...)`:
the per-extension globs are concatenated and then the whole concatenation is
sorted.  The directory listing order that `glob` uses is unspecified, so it
is modelled as an arbitrary enumeration of the file names. -/

def pyEndsWith (s suffix : String) : Bool := suffix.data.isSuffixOf s.data

def recognizedExts : List String := [".json", ".yaml", ".yml", ".toml", ".ini", ".conf"]

def globExt (files : List String) (ext : String) : List String :=
  files.filter (fun f => pyEndsWith f ext)

def recognizedB (f : String) : Bool := recognizedExts.any (fun e => pyEndsWith f e)

/-- Code-point comparison of characters, as Python compares strings. -/
def charLt (a b : Char) : Bool := decide (a.toNat < b.toNat)

def strLeAux : List Char → List Char → Bool
  | [], _ => true
  | _ :: _, [] => false
  | a :: as, b :: bs => if a = b then strLeAux as bs else charLt a b

/-- Python string comparison (filenames inside one directory compare exactly
like this under `sorted` of `Path` objects). -/
def strLe (a b : String) : Bool := strLeAux a.data b.data

def fileLe (a b : String) : Prop := strLe a b = true

instance : DecidableRel fileLe := fun a b => by
  unfold fileLe
  infer_instance

def insertSorted (x : String) : List String → List String
  | [] => [x]
  | y :: ys => if strLe x y then x :: y :: ys else y :: insertSorted x ys

/-- Insertion sort; `sorted` in Python computes the same list because the
order below is total and antisymmetric on strings. -/
def pySorted : List String → List String
  | [] => []
  | x :: xs => insertSorted x (pySorted xs)

/-- The file order `Config._load_config` actually merges in. -/
def configFilesOrder (files : List String) : List String :=
  pySorted (globExt files ".json" ++ globExt files ".yaml" ++ globExt files ".yml"
    ++ globExt files ".toml" ++ globExt files ".ini" ++ globExt files ".conf")

/-- Modelled from the claim wording: lexicographic by filename within each
recognized extension group, extension groups processed in the declared
order. -/
def claimFilesOrder (files : List String) : List String :=
  pySorted (globExt files ".json") ++ pySorted (globExt files ".yaml")
    ++ pySorted (globExt files ".yml") ++ pySorted (globExt files ".toml")
    ++ pySorted (globExt files ".ini") ++ pySorted (globExt files ".conf")

theorem char_toNat_inj {a b : Char} (h : a.toNat = b.toNat) : a = b :=
  Char.ext (UInt32.toNat.inj h)

theorem strLeAux_total : ∀ a b, strLeAux a b = true ∨ strLeAux b a = true := by
  intro a
  induction a with
  | nil => intro b; left; rfl
  | cons a₀ as ih =>
      intro b
      cases b with
      | nil => right; rfl
      | cons b₀ bs =>
          by_cases hab : a₀ = b₀
          · subst hab
            rcases ih bs with h | h
            · left; simp [strLeAux, h]
            · right; simp [strLeAux, h]
          · have hne : a₀.toNat ≠ b₀.toNat := fun h => hab (char_toNat_inj h)
            rcases Nat.lt_or_ge a₀.toNat b₀.toNat with h | h
            · left; simp [strLeAux, hab, charLt, h]
            · right
              have hlt : b₀.toNat < a₀.toNat := Nat.lt_of_le_of_ne h (Ne.symm hne)
              have hba : ¬ b₀ = a₀ := fun hh => hab hh.symm
              simp [strLeAux, hba, charLt, hlt]

theorem strLeAux_antisymm : ∀ a b, strLeAux a b = true → strLeAux b a = true → a = b := by
  intro a
  induction a with
  | nil =>
      intro b hab hba
      cases b with
      | nil => rfl
      | cons b₀ bs => simp [strLeAux] at hba
  | cons a₀ as ih =>
      intro b hab hba
      cases b with
      | nil => simp [strLeAux] at hab
      | cons b₀ bs =>
          by_cases hc : a₀ = b₀
          · subst hc
            simp only [strLeAux, if_pos rfl] at hab hba
            rw [ih bs hab hba]
          · simp only [strLeAux, if_neg hc, if_neg (fun hh => hc (Eq.symm hh)), charLt,
              decide_eq_true_eq] at hab hba
            omega

theorem strLeAux_trans : ∀ a b c, strLeAux a b = true → strLeAux b c = true →
    strLeAux a c = true := by
  intro a
  induction a with
  | nil => intro b c _ _; rfl
  | cons a₀ as ih =>
      intro b c hab hbc
      cases b with
      | nil => simp [strLeAux] at hab
      | cons b₀ bs =>
          cases c with
          | nil => simp [strLeAux] at hbc
          | cons c₀ cs =>
              by_cases hab₀ : a₀ = b₀
              · subst hab₀
                simp only [strLeAux, if_pos rfl] at hab
                by_cases hbc₀ : a₀ = c₀
                · subst hbc₀
                  simp only [strLeAux, if_pos rfl] at hbc ⊢
                  exact ih bs cs hab hbc
                · simp only [strLeAux, if_neg hbc₀] at hbc ⊢
                  exact hbc
              · simp only [strLeAux, if_neg hab₀, charLt, decide_eq_true_eq] at hab
                by_cases hbc₀ : b₀ = c₀
                · subst hbc₀
                  simp only [strLeAux, if_neg hab₀, charLt, decide_eq_true_eq]
                  exact hab
                · simp only [strLeAux, if_neg hbc₀, charLt, decide_eq_true_eq] at hbc
                  have hac : a₀.toNat < c₀.toNat := Nat.lt_trans hab hbc
                  have hne : a₀ ≠ c₀ := by
                    intro hh
                    subst hh
                    omega
                  simp [strLeAux, hne, charLt, hac]

theorem string_data_inj {a b : String} (h : a.data = b.data) : a = b := by
  cases a
  cases b
  simp only at h
  rw [h]

instance : IsAntisymm String fileLe :=
  ⟨fun a b hab hba => string_data_inj (strLeAux_antisymm a.data b.data hab hba)⟩

instance : IsTrans String fileLe :=
  ⟨fun a b c hab hbc => strLeAux_trans a.data b.data c.data hab hbc⟩

instance : IsTotal String fileLe :=
  ⟨fun a b => strLeAux_total a.data b.data⟩

theorem insertSorted_perm (x : String) : ∀ l, (insertSorted x l).Perm (x :: l) := by
  intro l
  induction l with
  | nil => simp [insertSorted]
  | cons y ys ih =>
      by_cases h : strLe x y
      · simp [insertSorted, h]
      · simp only [insertSorted, if_neg h]
        exact (ih.cons y).trans (List.Perm.swap x y ys)

theorem pySorted_perm : ∀ l, (pySorted l).Perm l := by
  intro l
  induction l with
  | nil => simp [pySorted]
  | cons x xs ih =>
      exact (insertSorted_perm x (pySorted xs)).trans (ih.cons x)

theorem insertSorted_pairwise (x : String) :
    ∀ l, l.Pairwise fileLe → (insertSorted x l).Pairwise fileLe := by
  intro l
  induction l with
  | nil =>
      intro _
      simp [insertSorted]
  | cons y ys ih =>
      intro hp
      rw [List.pairwise_cons] at hp
      by_cases h : strLe x y
      · simp only [insertSorted, if_pos h]
        rw [List.pairwise_cons]
        refine ⟨?_, List.pairwise_cons.2 hp⟩
        intro z hz
        rcases List.mem_cons.1 hz with hz | hz
        · subst hz; exact h
        · exact strLeAux_trans x.data y.data z.data h (hp.1 z hz)
      · simp only [insertSorted, if_neg h]
        rw [List.pairwise_cons]
        refine ⟨?_, ih hp.2⟩
        intro z hz
        have hz' : z ∈ x :: ys := (insertSorted_perm x ys).mem_iff.1 hz
        rcases List.mem_cons.1 hz' with hz' | hz'
        · subst hz'
          rcases strLeAux_total y.data z.data with hyx | hxy
          · exact hyx
          · exact absurd hxy h
        · exact hp.1 z hz'

theorem pySorted_pairwise : ∀ l, (pySorted l).Pairwise fileLe := by
  intro l
  induction l with
  | nil => simp [pySorted]
  | cons x xs ih => exact insertSorted_pairwise x (pySorted xs) ih

/-- Sorting is invariant under permutation of the input: the lexicographic
order is total and antisymmetric, so the sorted list is unique. -/
theorem pySorted_perm_invariant {l₁ l₂ : List String} (h : l₁.Perm l₂) :
    pySorted l₁ = pySorted l₂ := by
  have hp : (pySorted l₁).Perm (pySorted l₂) :=
    ((pySorted_perm l₁).trans h).trans (pySorted_perm l₂).symm
  exact List.eq_of_perm_of_sorted hp (pySorted_pairwise l₁) (pySorted_pairwise l₂)

/-- Concatenation of the per-extension globs, in the order given. -/
def globsConcat (files : List String) : List String → List String
  | [] => []
  | e :: es => globExt files e ++ globsConcat files es

theorem configFilesOrder_eq_globsConcat (files : List String) :
    configFilesOrder files = pySorted (globsConcat files recognizedExts) := by
  simp [configFilesOrder, globsConcat, recognizedExts]

theorem suffix_comparable {s t l : List Char} (h₁ : s <:+ l) (h₂ : t <:+ l) :
    s <:+ t ∨ t <:+ s := by
  have p₁ : s.reverse <+: l.reverse := by rw [List.reverse_prefix]; exact h₁
  have p₂ : t.reverse <+: l.reverse := by rw [List.reverse_prefix]; exact h₂
  rcases List.prefix_or_prefix_of_prefix p₁ p₂ with hp | hp
  · left
    rw [← List.reverse_prefix]
    exact hp
  · right
    rw [← List.reverse_prefix]
    exact hp

theorem recognizedExts_incompatible :
    ∀ e₁ ∈ recognizedExts, ∀ e₂ ∈ recognizedExts,
      (e₁.data <:+ e₂.data ∨ e₂.data <:+ e₁.data) → e₁ = e₂ := by
  decide

/-- A file name matches at most one recognized extension. -/
theorem recognizedExts_unique (f : String) :
    ∀ e₁ ∈ recognizedExts, pyEndsWith f e₁ = true →
    ∀ e₂ ∈ recognizedExts, pyEndsWith f e₂ = true → e₁ = e₂ := by
  intro e₁ he₁ h₁ e₂ he₂ h₂
  have s₁ : e₁.data <:+ f.data := by
    have := h₁
    unfold pyEndsWith at this
    exact List.isSuffixOf_iff_suffix.1 this
  have s₂ : e₂.data <:+ f.data := by
    have := h₂
    unfold pyEndsWith at this
    exact List.isSuffixOf_iff_suffix.1 this
  exact recognizedExts_incompatible e₁ he₁ e₂ he₂ (suffix_comparable s₁ s₂)

theorem globsConcat_no_match (x : String) (rest : List String) :
    ∀ exts, (∀ e ∈ exts, ¬ pyEndsWith x e = true) →
      globsConcat (x :: rest) exts = globsConcat rest exts := by
  intro exts
  induction exts with
  | nil => intro _; rfl
  | cons e es ih =>
      intro hno
      have hxe : ¬ pyEndsWith x e = true := hno e (List.mem_cons_self _ _)
      simp only [globsConcat, globExt, List.filter_cons]
      rw [if_neg (by simpa using hxe)]
      rw [ih (fun e' he' => hno e' (List.mem_cons_of_mem _ he'))]

theorem globsConcat_cons (x : String) (rest : List String) :
    ∀ exts, exts.Nodup →
      (∀ e₁ ∈ exts, pyEndsWith x e₁ = true → ∀ e₂ ∈ exts, pyEndsWith x e₂ = true → e₁ = e₂) →
      (globsConcat (x :: rest) exts).Perm
        ((if exts.any (fun e => pyEndsWith x e) then [x] else []) ++ globsConcat rest exts) := by
  intro exts
  induction exts with
  | nil =>
      intro _ _
      simp [globsConcat]
  | cons e es ih =>
      intro hnd huniq
      rw [List.nodup_cons] at hnd
      by_cases hxe : pyEndsWith x e = true
      · have hnoes : ∀ e' ∈ es, ¬ pyEndsWith x e' = true := by
          intro e' he' hxe'
          have : e = e' := huniq e (List.mem_cons_self _ _) hxe e'
            (List.mem_cons_of_mem _ he') hxe'
          exact hnd.1 (this ▸ he')
        have hany : (e :: es).any (fun e' => pyEndsWith x e') = true := by
          simp [hxe]
        rw [hany]
        simp only [globsConcat, globExt, List.filter_cons]
        rw [if_pos (by simpa using hxe)]
        have hes : globsConcat (x :: rest) es = globsConcat rest es := by
          have := globsConcat_no_match x rest es hnoes
          exact this
        rw [hes]
        simp [globExt]
      · simp only [globsConcat, globExt, List.filter_cons]
        rw [if_neg (by simpa using hxe)]
        have huniq' : ∀ e₁ ∈ es, pyEndsWith x e₁ = true →
            ∀ e₂ ∈ es, pyEndsWith x e₂ = true → e₁ = e₂ := by
          intro e₁ he₁ h₁ e₂ he₂ h₂
          exact huniq e₁ (List.mem_cons_of_mem _ he₁) h₁ e₂ (List.mem_cons_of_mem _ he₂) h₂
        have hperm := ih hnd.2 huniq'
        by_cases hany : es.any (fun e' => pyEndsWith x e') = true
        · rw [if_pos hany] at hperm
          have hanyc : (e :: es).any (fun e' => pyEndsWith x e') = true := by
            simp only [List.any_cons, Bool.or_eq_true]
            right
            exact hany
          rw [if_pos hanyc]
          have h1 : (List.filter (fun f => pyEndsWith f e) rest ++
              globsConcat (x :: rest) es).Perm
              (List.filter (fun f => pyEndsWith f e) rest ++ ([x] ++ globsConcat rest es)) :=
            List.Perm.append_left _ hperm
          have h2 : (List.filter (fun f => pyEndsWith f e) rest ++
              ([x] ++ globsConcat rest es)).Perm
              (x :: (List.filter (fun f => pyEndsWith f e) rest ++ globsConcat rest es)) :=
            List.perm_middle
          exact h1.trans h2
        · rw [if_neg hany] at hperm
          have hanyc : ¬ (e :: es).any (fun e' => pyEndsWith x e') = true := by
            simp only [List.any_cons, Bool.or_eq_true]
            rintro (hh | hh)
            · exact hxe hh
            · exact hany hh
          rw [if_neg hanyc]
          have h1 : (List.filter (fun f => pyEndsWith f e) rest ++
              globsConcat (x :: rest) es).Perm
              (List.filter (fun f => pyEndsWith f e) rest ++ ([] ++ globsConcat rest es)) :=
            List.Perm.append_left _ hperm
          exact h1

theorem globsConcat_perm_filter :
    ∀ files : List String, (globsConcat files recognizedExts).Perm (files.filter recognizedB) := by
  intro files
  induction files with
  | nil => simp [globsConcat, globExt, recognizedExts]
  | cons x rest ih =>
      have hstep := globsConcat_cons x rest recognizedExts (by decide)
        (recognizedExts_unique x)
      by_cases hx : recognizedB x = true
      · rw [List.filter_cons, if_pos hx]
        have hx' : recognizedExts.any (fun e => pyEndsWith x e) = true := hx
        rw [if_pos hx'] at hstep
        exact hstep.trans (ih.cons x)
      · rw [List.filter_cons, if_neg hx]
        have hx' : ¬ recognizedExts.any (fun e => pyEndsWith x e) = true := hx
        rw [if_neg hx'] at hstep
        exact hstep.trans ih

/-- One parsed file of a directory: its name and its parsed tree. -/
def findFile (dir : List (String × List (String × Value))) (name : String) :
    List (String × Value) :=
  match dir with
  | [] => []
  | (n, t) :: rest => if n = name then t else findFile rest name

/-- The merge loop of `_load_config`: fold the parsed trees over the
discovered file order. -/
def loadMerged (dir : List (String × List (String × Value))) : List (String × Value) :=
  (configFilesOrder (dir.map Prod.fst)).foldl
    (fun acc name => mergeDict acc (findFile dir name)) []

theorem findFile_mem {dir : List (String × List (String × Value))} {n : String}
    {t : List (String × Value)} (hmem : (n, t) ∈ dir)
    (hnd : (dir.map Prod.fst).Nodup) : findFile dir n = t := by
  induction dir with
  | nil => simp at hmem
  | cons hd rest ih =>
      obtain ⟨n₀, t₀⟩ := hd
      simp only [List.map_cons, List.nodup_cons] at hnd
      rcases List.mem_cons.1 hmem with h | h
      · obtain ⟨h1, h2⟩ := Prod.mk.injEq _ _ _ _ ▸ h
        simp [findFile, h1.symm, h2]
      · have hne : n₀ ≠ n := by
          intro hh
          subst hh
          exact hnd.1 (List.mem_map.2 ⟨(n₀, t), h, rfl⟩)
        simp [findFile, hne, ih h hnd.2]

theorem findFile_not_mem {dir : List (String × List (String × Value))} {n : String}
    (h : n ∉ dir.map Prod.fst) : findFile dir n = [] := by
  induction dir with
  | nil => rfl
  | cons hd rest ih =>
      obtain ⟨n₀, t₀⟩ := hd
      simp only [List.map_cons, List.mem_cons] at h
      push_neg at h
      simp [findFile, Ne.symm h.1, ih h.2]

theorem findFile_perm {dir dir' : List (String × List (String × Value))}
    (hperm : dir.Perm dir') (hnd : (dir.map Prod.fst).Nodup) :
    ∀ n, findFile dir n = findFile dir' n := by
  intro n
  have hnd' : (dir'.map Prod.fst).Nodup := (hperm.map Prod.fst).nodup_iff.1 hnd
  by_cases hm : n ∈ dir.map Prod.fst
  · obtain ⟨⟨n₀, t⟩, hmem, hn⟩ := List.mem_map.1 hm
    subst hn
    rw [findFile_mem hmem hnd, findFile_mem (hperm.mem_iff.1 hmem) hnd']
  · rw [findFile_not_mem hm, findFile_not_mem (fun hh => hm ((hperm.map Prod.fst).mem_iff.2 hh))]

/-- C3 counterexample: with files `a.yaml` and `b.json` the code sorts the
whole concatenation lexicographically (`a.yaml` before `b.json`), while the
claimed per-extension grouping would put the json group first. -/
theorem c3_counterexample :
    configFilesOrder ["a.yaml", "b.json"] = ["a.yaml", "b.json"]
    ∧ claimFilesOrder ["a.yaml", "b.json"] = ["b.json", "a.yaml"]
    ∧ configFilesOrder ["a.yaml", "b.json"] ≠ claimFilesOrder ["a.yaml", "b.json"] := by
  refine ⟨by decide, by decide, ?_⟩
  intro h
  have h1 : configFilesOrder ["a.yaml", "b.json"] = ["a.yaml", "b.json"] := by decide
  have h2 : claimFilesOrder ["a.yaml", "b.json"] = ["b.json", "a.yaml"] := by decide
  rw [h1, h2] at h
  simp at h

/-- C3 (amended): the load order is the lexicographic sort of all recognized
files taken together (not grouped by extension), it is sorted and a
permutation of the recognized files, it does not depend on the enumeration
order of the directory, and consequently the merged tree of an unchanged
directory is the same on every load. -/
theorem c3_sorted_merge_order (files : List String) :
    configFilesOrder files = pySorted (files.filter recognizedB)
    ∧ (configFilesOrder files).Pairwise fileLe
    ∧ (configFilesOrder files).Perm (files.filter recognizedB)
    ∧ (∀ files', files.Perm files' → configFilesOrder files = configFilesOrder files')
    ∧ (∀ dir dir' : List (String × List (String × Value)), dir.Perm dir' →
        (dir.map Prod.fst).Nodup → loadMerged dir = loadMerged dir') := by
  refine ⟨?_, ?_, ?_, ?_, ?_⟩
  · rw [configFilesOrder_eq_globsConcat]
    exact pySorted_perm_invariant (globsConcat_perm_filter files)
  · rw [configFilesOrder_eq_globsConcat]
    exact pySorted_pairwise _
  · rw [configFilesOrder_eq_globsConcat]
    exact (pySorted_perm _).trans (globsConcat_perm_filter files)
  · intro files' hp
    rw [configFilesOrder_eq_globsConcat, configFilesOrder_eq_globsConcat]
    refine pySorted_perm_invariant ?_
    exact (globsConcat_perm_filter files).trans ((hp.filter _).trans
      (globsConcat_perm_filter files').symm)
  · intro dir dir' hperm hnd
    unfold loadMerged
    have horder : configFilesOrder (dir.map Prod.fst) = configFilesOrder (dir'.map Prod.fst) := by
      rw [configFilesOrder_eq_globsConcat, configFilesOrder_eq_globsConcat]
      refine pySorted_perm_invariant ?_
      exact (globsConcat_perm_filter _).trans (((hperm.map Prod.fst).filter _).trans
        (globsConcat_perm_filter _).symm)
    rw [← horder]
    have hfind := findFile_perm hperm hnd
    have hfold : ∀ (l : List String) (acc : List (String × Value)),
        l.foldl (fun acc name => mergeDict acc (findFile dir name)) acc
          = l.foldl (fun acc name => mergeDict acc (findFile dir' name)) acc := by
      intro l
      induction l with
      | nil => intro acc; rfl
      | cons nm rest ih =>
          intro acc
          simp only [List.foldl_cons]
          rw [hfind nm]
          exact ih _
    exact hfold _ []

/-- Concrete instantiation of `c3_sorted_merge_order`: the two enumeration
orders of the same directory produce the same load order and the same merged
tree. -/
theorem c3_sorted_merge_order_witness :
    configFilesOrder ["b.json", "a.yaml"] = configFilesOrder ["a.yaml", "b.json"]
    ∧ loadMerged [("b.json", [("k", Value.vint 2)]), ("a.yaml", [("k", Value.vint 1)])]
        = loadMerged [("a.yaml", [("k", Value.vint 1)]), ("b.json", [("k", Value.vint 2)])] :=
  ⟨(c3_sorted_merge_order ["b.json", "a.yaml"]).2.2.2.1 ["a.yaml", "b.json"]
      (List.Perm.swap "a.yaml" "b.json" []),
   (c3_sorted_merge_order ["b.json", "a.yaml"]).2.2.2.2
      [("b.json", [("k", Value.vint 2)]), ("a.yaml", [("k", Value.vint 1)])]
      [("a.yaml", [("k", Value.vint 1)]), ("b.json", [("k", Value.vint 2)])]
      (List.Perm.swap _ _ []) (by decide)⟩

/-! ### Structured log formatting (`JsonFormatter.format` in `utils/logging.py`)

The formatter is pure given the wall-clock timestamp, which is passed in as a
parameter.  Records are modelled for the non-exception path
(`record.exc_info` unset); `record.__dict__` is an insertion-ordered
association list whose standard attributes are all in `_RESERVED` and whose
remaining entries are the caller-supplied `extra=` fields. -/

def reservedAttrs : List String :=
  ["name", "msg", "args", "levelname", "levelno", "pathname", "filename", "module",
   "exc_info", "exc_text", "stack_info", "lineno", "funcName", "created", "msecs",
   "relativeCreated", "thread", "threadName", "processName", "process"]

structure LogRecord where
  name : String
  levelname : String
  message : String
  attrs : List (String × Value)

/-- Python `dict.update`: every binding of the update mapping overwrites. -/
def pyUpdate (payload : List (String × Value)) : List (String × Value) →
    List (String × Value)
  | [] => payload
  | (k, v) :: rest => pyUpdate (setItem payload k v) rest

/-- Python `dict.setdefault`: insert only when the key is absent. -/
def setDefault (payload : List (String × Value)) (k : String) (v : Value) :
    List (String × Value) :=
  match assocFind payload k with
  | some _ => payload
  | none => payload ++ [(k, v)]

/-- The five fixed fields the formatter writes first. -/
def basePayload (ts serviceName : String) (record : LogRecord) : List (String × Value) :=
  [("timestamp", Value.vstr ts), ("level", Value.vstr record.levelname),
   ("logger", Value.vstr record.name), ("service", Value.vstr serviceName),
   ("message", Value.vstr record.message)]

/-- `JsonFormatter.format`: fixed fields, then `payload.update(extra_fields)`,
then `payload.setdefault(key, value)` for every non-reserved, non-underscore
record attribute. -/
def formatRecord (ts serviceName : String) (extraFields : List (String × Value))
    (record : LogRecord) : List (String × Value) :=
  record.attrs.foldl
    (fun p kv =>
      if kv.1 ∈ reservedAttrs ∨ kv.1.startsWith "_" then p
      else setDefault p kv.1 kv.2)
    (pyUpdate (basePayload ts serviceName record) extraFields)

def reservedFive : List String := ["timestamp", "level", "logger", "service", "message"]

theorem assocFind_append_left {p : List (String × Value)} {k : String} {v : Value}
    (h : assocFind p k = some v) (q : List (String × Value)) :
    assocFind (p ++ q) k = some v := by
  induction p with
  | nil => simp [assocFind] at h
  | cons hd rest ih =>
      obtain ⟨k₀, v₀⟩ := hd
      by_cases hk : k₀ = k
      · simp only [assocFind, if_pos hk] at h
        simp [assocFind, hk, h]
      · simp only [assocFind, if_neg hk] at h
        simp [assocFind, hk, ih h]

theorem setDefault_preserves {p : List (String × Value)} {k : String} {v : Value}
    (h : assocFind p k = some v) (k' : String) (v' : Value) :
    assocFind (setDefault p k' v') k = some v := by
  unfold setDefault
  cases hf : assocFind p k' with
  | some _ => exact h
  | none => exact assocFind_append_left h _

/-- The `setdefault` fold over record attributes never changes an existing
binding: first writer wins. -/
theorem attrsFold_preserves (attrs : List (String × Value)) :
    ∀ (p : List (String × Value)) (k : String) (v : Value), assocFind p k = some v →
      assocFind (attrs.foldl
        (fun p kv =>
          if kv.1 ∈ reservedAttrs ∨ kv.1.startsWith "_" then p
          else setDefault p kv.1 kv.2) p) k = some v := by
  induction attrs with
  | nil => intro p k v h; exact h
  | cons kv rest ih =>
      intro p k v h
      simp only [List.foldl_cons]
      by_cases hskip : kv.1 ∈ reservedAttrs ∨ kv.1.startsWith "_"
      · rw [if_pos hskip]
        exact ih p k v h
      · rw [if_neg hskip]
        exact ih _ k v (setDefault_preserves h kv.1 kv.2)

theorem pyUpdate_not_mem (upd : List (String × Value)) :
    ∀ (p : List (String × Value)) (k : String), k ∉ upd.map Prod.fst →
      assocFind (pyUpdate p upd) k = assocFind p k := by
  induction upd with
  | nil => intro p k _; rfl
  | cons kv rest ih =>
      intro p k hk
      obtain ⟨k₀, v₀⟩ := kv
      simp only [List.map_cons, List.mem_cons] at hk
      push_neg at hk
      show assocFind (pyUpdate (setItem p k₀ v₀) rest) k = _
      rw [ih _ k hk.2]
      exact assocFind_setItem_other _ _ hk.1

/-- C5 counterexample: a static `extra_fields` entry named `service` does
overwrite the reserved `service` field through `payload.update`. -/
theorem c5_counterexample :
    assocFind (formatRecord "T" "svc" [("service", Value.vstr "evil")]
        ⟨"log", "INFO", "msg", []⟩) "service" = some (Value.vstr "evil")
    ∧ some (Value.vstr "evil") ≠ some (Value.vstr "svc") := by
  constructor
  · rfl
  · intro h
    have h2 : Value.vstr "evil" = Value.vstr "svc" := Option.some.inj h
    exact absurd (Value.vstr.inj h2) (by decide)

/-- C5 (amended): the emitted record always starts from the five fixed
fields; caller-supplied record attributes never overwrite any existing key
(first writer wins, so in particular they never overwrite the reserved
fields); the formatter-level static `extra_fields`, however, overwrite
reserved names on collision, so the five reserved lookups are guaranteed
only when the static extras avoid the reserved names. -/
theorem c5_reserved_field_precedence (ts serviceName : String)
    (extraFields : List (String × Value)) (record : LogRecord) :
    (∀ k v, assocFind (pyUpdate (basePayload ts serviceName record) extraFields) k = some v →
        assocFind (formatRecord ts serviceName extraFields record) k = some v)
    ∧ ((∀ r ∈ reservedFive, r ∉ extraFields.map Prod.fst) →
        assocFind (formatRecord ts serviceName extraFields record) "timestamp"
            = some (Value.vstr ts)
        ∧ assocFind (formatRecord ts serviceName extraFields record) "level"
            = some (Value.vstr record.levelname)
        ∧ assocFind (formatRecord ts serviceName extraFields record) "logger"
            = some (Value.vstr record.name)
        ∧ assocFind (formatRecord ts serviceName extraFields record) "service"
            = some (Value.vstr serviceName)
        ∧ assocFind (formatRecord ts serviceName extraFields record) "message"
            = some (Value.vstr record.message)) := by
  constructor
  · intro k v h
    exact attrsFold_preserves record.attrs _ k v h
  · intro hres
    have base : ∀ r, r ∈ reservedFive →
        ∀ v, assocFind (basePayload ts serviceName record) r = some v →
        assocFind (formatRecord ts serviceName extraFields record) r = some v := by
      intro r hr v hv
      refine attrsFold_preserves record.attrs _ r v ?_
      rw [pyUpdate_not_mem extraFields _ r (hres r hr)]
      exact hv
    refine ⟨?_, ?_, ?_, ?_, ?_⟩
    · exact base "timestamp" (by decide) _ rfl
    · exact base "level" (by decide) _ rfl
    · exact base "logger" (by decide) _ rfl
    · exact base "service" (by decide) _ rfl
    · exact base "message" (by decide) _ rfl

/-- Concrete instantiation of `c5_reserved_field_precedence`: benign static
extras plus a caller attempt to overwrite `service` and `message`. -/
theorem c5_reserved_field_precedence_witness :
    assocFind (formatRecord "T" "svc" [("env", Value.vstr "test")]
        ⟨"log", "INFO", "hello", [("service", Value.vstr "spoof"),
          ("message", Value.vstr "spoof"), ("user_id", Value.vstr "u1")]⟩) "service"
      = some (Value.vstr "svc")
    ∧ assocFind (formatRecord "T" "svc" [("env", Value.vstr "test")]
        ⟨"log", "INFO", "hello", [("service", Value.vstr "spoof"),
          ("message", Value.vstr "spoof"), ("user_id", Value.vstr "u1")]⟩) "message"
      = some (Value.vstr "hello") := by
  have h := (c5_reserved_field_precedence "T" "svc" [("env", Value.vstr "test")]
    ⟨"log", "INFO", "hello", [("service", Value.vstr "spoof"),
      ("message", Value.vstr "spoof"), ("user_id", Value.vstr "u1")]⟩).2 (by decide)
  exact ⟨h.2.2.2.1, h.2.2.2.2⟩

/-! ### Logging pipeline state (`setup_logging` / `setup_global_logger` in
`utils/logger.py`)

The process-wide logging backend is modelled as a registry from logger names
to logger states; `logging.getLogger(name)` reads the entry or a fresh
default (`NOTSET` level, propagation on, no handlers).  Handler and
formatter objects are modelled by the data `setup_logging` configures them
with.  A record emitted at an enabled level through a logger reaches its own
handlers and, while propagation stays on, the dotted ancestors. -/

inductive Formatter where
  | json (serviceName : String) (extraFields : List (String × Value))
  | detailed

inductive Handler where
  | console (fmt : Formatter)
  | rotatingFile (path : String) (maxBytes : Int) (backupCount : Int) (fmt : Formatter)

structure LoggerState where
  level : Value
  propagate : Bool
  handlers : List Handler

/-- A never-configured logger, as `logging.getLogger` creates it. -/
def freshLogger : LoggerState := ⟨Value.vstr "NOTSET", true, []⟩

def LogState := List (String × LoggerState)

def getLoggerState (state : LogState) (name : String) : LoggerState :=
  match state with
  | [] => freshLogger
  | (n, ls) :: rest => if n = name then ls else getLoggerState rest name

def setLoggerState (state : LogState) (name : String) (ls : LoggerState) : LogState :=
  match state with
  | [] => [(name, ls)]
  | (n, ls₀) :: rest =>
      if n = name then (name, ls) :: rest else (n, ls₀) :: setLoggerState rest name ls

/-- Python truthiness of an embedded value (`if log_file:`). -/
def isTruthy : Value → Bool
  | .vnull => false
  | .vbool b => b
  | .vint n => !(n = 0)
  | .vstr s => !(s = "")
  | .vlist xs => !(xs.isEmpty)
  | .vdict items => !(items.isEmpty)

/-- The handler list `setup_logging` installs after `handlers.clear()`: one
stdout console handler and, when a truthy log-file value is given, one
size-rotating file handler; both share the formatter choice. -/
def mkHandlers (serviceName : String) (jsonLogs : Bool) (logFile : Value)
    (maxBytes backupCount : Int) (extraFields : List (String × Value)) : List Handler :=
  let fmt := if jsonLogs then Formatter.json serviceName extraFields else Formatter.detailed
  Handler.console fmt ::
    (if isTruthy logFile then
      [Handler.rotatingFile (pyStr logFile) maxBytes backupCount
        (if jsonLogs then Formatter.json serviceName extraFields else Formatter.detailed)]
     else [])

/-- `setup_logging` (the pipeline part, after the optional config-value
override block): get-or-create the logger named by the service, clear its
handlers, set level and propagation, attach the new handler set.  Returns
the new registry and the configured logger name. -/
def setupLogging (state : LogState) (serviceName : String) (level : Value)
    (jsonLogs : Bool) (logFile : Value) (maxBytes backupCount : Int)
    (extraFields : List (String × Value)) (propagate : Bool) : LogState × String :=
  (setLoggerState state serviceName
    ⟨level, propagate,
      mkHandlers serviceName jsonLogs logFile maxBytes backupCount extraFields⟩,
   serviceName)

/-- The dotted-ancestor chain Python logging walks, from the logger itself
upward (`a.b.c`, `a.b`, `a`). -/
def loggerChain (name : List Char) : List (List Char) :=
  match splitDots name with
  | [] => []
  | p :: ps => chainAux p ps
where
  chainAux (first : List Char) : List (List Char) → List (List Char)
    | [] => [first]
    | p :: ps => chainAux (first ++ '.' :: p) ps ++ [first]

/-- The handlers a record emitted through `name` reaches: own handlers, then
each dotted ancestor while propagation stays enabled. -/
def emittedHandlers (state : LogState) : List (List Char) → List Handler
  | [] => []
  | n :: rest =>
      let ls := getLoggerState state (String.mk n)
      ls.handlers ++ (if ls.propagate then emittedHandlers state rest else [])

def emitVia (state : LogState) (name : String) : List Handler :=
  emittedHandlers state (loggerChain name.data)

/-- The number of loggers holding a non-empty writer set. -/
def activeWriterSets (state : LogState) : Nat :=
  (state.filter (fun kv => !(kv.2.handlers.isEmpty))).length

theorem stringMkData (s : String) : String.mk s.data = s := rfl

theorem getLoggerState_set_same (state : LogState) (name : String) (ls : LoggerState) :
    getLoggerState (setLoggerState state name ls) name = ls := by
  induction state with
  | nil => simp [setLoggerState, getLoggerState]
  | cons hd rest ih =>
      obtain ⟨n₀, ls₀⟩ := hd
      by_cases h : n₀ = name
      · simp [setLoggerState, h, getLoggerState]
      · simp [setLoggerState, h, getLoggerState, ih]

theorem getLoggerState_set_other (state : LogState) {name n' : String} (ls : LoggerState)
    (hne : n' ≠ name) :
    getLoggerState (setLoggerState state name ls) n' = getLoggerState state n' := by
  induction state with
  | nil => simp [setLoggerState, getLoggerState, Ne.symm hne]
  | cons hd rest ih =>
      obtain ⟨n₀, ls₀⟩ := hd
      by_cases h : n₀ = name
      · subst h
        simp [setLoggerState, getLoggerState, Ne.symm hne]
      · simp only [setLoggerState, if_neg h, getLoggerState]
        by_cases h' : n₀ = n'
        · simp [h']
        · simp [h', ih]

/-- Rejoin dot-separated parts. -/
def joinParts : List (List Char) → List Char
  | [] => []
  | [p] => p
  | p :: ps => p ++ '.' :: joinParts ps

theorem splitDots_ne_nil : ∀ l : List Char, splitDots l ≠ [] := by
  intro l
  cases l with
  | nil => simp [splitDots]
  | cons c rest =>
      by_cases h : c = '.'
      · simp [splitDots, h]
      · simp only [splitDots, if_neg h]
        cases hs : splitDots rest with
        | nil => simp [consHead]
        | cons p ps => simp [consHead]

theorem splitDots_join : ∀ l : List Char, joinParts (splitDots l) = l := by
  intro l
  induction l with
  | nil => rfl
  | cons c rest ih =>
      by_cases h : c = '.'
      · subst h
        simp only [splitDots, if_pos rfl]
        cases hs : splitDots rest with
        | nil => exact absurd hs (splitDots_ne_nil rest)
        | cons p ps =>
            rw [hs] at ih
            show joinParts ([] :: p :: ps) = '.' :: rest
            rw [← ih]
            rfl
      · simp only [splitDots, if_neg h]
        cases hs : splitDots rest with
        | nil => exact absurd hs (splitDots_ne_nil rest)
        | cons p ps =>
            rw [hs] at ih
            cases ps with
            | nil =>
                show joinParts [c :: p] = c :: rest
                rw [← ih]
                rfl
            | cons q qs =>
                show joinParts ((c :: p) :: q :: qs) = c :: rest
                rw [← ih]
                rfl

theorem chainAux_head :
    ∀ (ps : List (List Char)) (first : List Char),
      ∃ rest, loggerChain.chainAux first ps = joinParts (first :: ps) :: rest := by
  intro ps
  induction ps with
  | nil =>
      intro first
      exact ⟨[], rfl⟩
  | cons p ps' ih =>
      intro first
      obtain ⟨rest', hrest⟩ := ih (first ++ '.' :: p)
      refine ⟨rest' ++ [first], ?_⟩
      show loggerChain.chainAux (first ++ '.' :: p) ps' ++ [first] = _
      rw [hrest]
      have hjoin : joinParts ((first ++ '.' :: p) :: ps') = joinParts (first :: p :: ps') := by
        cases ps' with
        | nil => rfl
        | cons q qs => simp [joinParts]
      rw [hjoin]
      rfl

theorem loggerChain_head (name : List Char) :
    ∃ rest, loggerChain name = name :: rest := by
  unfold loggerChain
  cases hs : splitDots name with
  | nil => exact absurd hs (splitDots_ne_nil name)
  | cons p ps =>
      obtain ⟨rest, hrest⟩ := chainAux_head ps p
      refine ⟨rest, ?_⟩
      show loggerChain.chainAux p ps = name :: rest
      rw [hrest]
      have : joinParts (p :: ps) = name := by
        rw [← hs]
        exact splitDots_join name
      rw [this]

/-- With propagation disabled on the logger itself, an emitted record
reaches exactly that logger's handlers, each once. -/
theorem emitVia_no_propagate {state : LogState} {n : String}
    (h : (getLoggerState state n).propagate = false) :
    emitVia state n = (getLoggerState state n).handlers := by
  unfold emitVia
  obtain ⟨rest, hchain⟩ := loggerChain_head n.data
  rw [hchain]
  show (getLoggerState state (String.mk n.data)).handlers ++ _ = _
  rw [stringMkData, h]
  simp

/-- C6 counterexample: two setup calls with different service names leave two
active writer sets, not one. -/
theorem c6_counterexample :
    activeWriterSets (setupLogging (setupLogging [] "svc1" (Value.vstr "INFO") false
        Value.vnull 10485760 5 [] false).1 "svc2" (Value.vstr "INFO") false
        Value.vnull 10485760 5 [] false).1 = 2
    ∧ (2 : Nat) ≠ 1 := ⟨rfl, by decide⟩

/-- C6 (amended): re-invoking the setup replaces the handler set of the
logger it names (so the same name twice leaves exactly the second pipeline),
and a single message logged through the logger of the second call produces
exactly the second pipeline once (no duplicate lines, propagation being
disabled); but when the two calls use different names, the first writer set
remains attached to the first logger rather than being removed. -/
theorem c6_reconfiguration (state : LogState) (n₁ n₂ : String)
    (lv₁ lv₂ : Value) (j₁ j₂ : Bool) (f₁ f₂ : Value) (mb₁ mb₂ bc₁ bc₂ : Int)
    (ef₁ ef₂ : List (String × Value)) :
    (getLoggerState (setupLogging (setupLogging state n₁ lv₁ j₁ f₁ mb₁ bc₁ ef₁ false).1
        n₂ lv₂ j₂ f₂ mb₂ bc₂ ef₂ false).1 n₂).handlers
      = mkHandlers n₂ j₂ f₂ mb₂ bc₂ ef₂
    ∧ emitVia (setupLogging (setupLogging state n₁ lv₁ j₁ f₁ mb₁ bc₁ ef₁ false).1
        n₂ lv₂ j₂ f₂ mb₂ bc₂ ef₂ false).1 n₂
      = mkHandlers n₂ j₂ f₂ mb₂ bc₂ ef₂
    ∧ (n₁ ≠ n₂ →
        (getLoggerState (setupLogging (setupLogging state n₁ lv₁ j₁ f₁ mb₁ bc₁ ef₁ false).1
            n₂ lv₂ j₂ f₂ mb₂ bc₂ ef₂ false).1 n₁).handlers
          = mkHandlers n₁ j₁ f₁ mb₁ bc₁ ef₁) := by
  refine ⟨?_, ?_, ?_⟩
  · show (getLoggerState (setLoggerState _ n₂ _) n₂).handlers = _
    rw [getLoggerState_set_same]
  · have hprop : (getLoggerState (setupLogging (setupLogging state n₁ lv₁ j₁ f₁ mb₁ bc₁ ef₁
        false).1 n₂ lv₂ j₂ f₂ mb₂ bc₂ ef₂ false).1 n₂).propagate = false := by
      show (getLoggerState (setLoggerState _ n₂ _) n₂).propagate = false
      rw [getLoggerState_set_same]
    rw [emitVia_no_propagate hprop]
    show (getLoggerState (setLoggerState _ n₂ _) n₂).handlers = _
    rw [getLoggerState_set_same]
  · intro hne
    show (getLoggerState (setLoggerState (setLoggerState state n₁ _) n₂ _) n₁).handlers = _
    rw [getLoggerState_set_other _ _ hne, getLoggerState_set_same]

/-- Concrete instantiation of `c6_reconfiguration`. -/
theorem c6_reconfiguration_witness :
    (getLoggerState (setupLogging (setupLogging [] "svc1" (Value.vstr "INFO") false
        Value.vnull 10485760 5 [] false).1 "svc2" (Value.vstr "DEBUG") true
        Value.vnull 10485760 5 [] false).1 "svc1").handlers
      = mkHandlers "svc1" false Value.vnull 10485760 5 [] :=
  (c6_reconfiguration [] "svc1" "svc2" (Value.vstr "INFO") (Value.vstr "DEBUG")
    false true Value.vnull Value.vnull 10485760 10485760 5 5 [] []).2.2
    (by intro h; exact absurd (congrArg String.data h) (by decide))

/-! ### Dot-path accessors of `Config` -/

/-- The traversal loop of `Config.get`: `value = value.get(key)` and a
`None` result (missing key or stored null) returns the default; a non-dict
intermediate returns the default. -/
def configGetGo (dflt : Value) : Value → List (List Char) → Value
  | v, [] => v
  | v, k :: ks =>
      match v with
      | .vdict items =>
          match assocFind items (String.mk k) with
          | some w => if w.isNull then dflt else configGetGo dflt w ks
          | none => dflt
      | _ => dflt

/-- `Config.get(key_path, default)`. -/
def configGet (root : Value) (keyPath : String) (dflt : Value) : Value :=
  configGetGo dflt root (splitDots keyPath.data)

/-- The traversal loop of `Config.has`: follow dict keys only, `False` as
soon as a segment is absent or a non-dict is reached. -/
def configHasGo : Value → List (List Char) → Bool
  | _, [] => true
  | v, k :: ks =>
      match v with
      | .vdict items =>
          match assocFind items (String.mk k) with
          | some w => configHasGo w ks
          | none => false
      | _ => false

/-- `Config.has(key_path)`. -/
def configHas (root : Value) (keyPath : String) : Bool :=
  configHasGo root (splitDots keyPath.data)

/-- Raw stored value at a dot path (the reference traversal used to state
properties: dict lookups only, `none` when a segment is absent or a non-dict
is entered). -/
def lookupKeys : Value → List (List Char) → Option Value
  | v, [] => some v
  | v, k :: ks =>
      match v with
      | .vdict items =>
          match assocFind items (String.mk k) with
          | some w => lookupKeys w ks
          | none => none
      | _ => none

/-! ### `setup_global_logger` -/

/-- `config.get('logging.file') or config.get('paths.logs.file')`: Python
`or` keeps the first operand when it is truthy. -/
def pyOr (a b : Value) : Value := if isTruthy a then a else b

/-- The manual branch of `setup_global_logger`: read the flat logging keys
from the configuration and build the default pipeline through
`setup_logging`. -/
def manualGlobalSetup (cfgv : Value) (name : String) (state : LogState) :
    LogState × String :=
  setupLogging state name
    (configGet cfgv "logging.level" (Value.vstr "INFO"))
    (isTruthy (configGet cfgv "logging.json_format" (Value.vbool false)))
    (pyOr (configGet cfgv "logging.file" Value.vnull)
      (configGet cfgv "paths.logs.file" Value.vnull))
    (10 * 1024 * 1024) 5 [] false

/-- `setup_global_logger(service_name, use_dict_config)`: the declarative
schema application (`logging.config.dictConfig`) is an external effect and
is passed in abstractly as a function that either returns the new backend
state or fails; its failure is caught and the manual default pipeline is
built instead.  The configured `logging.max_bytes` / `logging.backup_count`
values feed `setup_logging` unchanged; they are modelled at their defaults
because the claims under test do not distinguish them. -/
def setupGlobalLogger (cfgv : Value) (serviceName : Option String)
    (useDictConfig : Bool) (dictConfig : Value → LogState → Except String LogState)
    (state : LogState) : LogState × String :=
  let name :=
    match serviceName with
    | some n => n
    | none => pyStr (configGet cfgv "application.name" (Value.vstr "utils-service"))
  let schemaResult :=
    if useDictConfig then
      match configGet cfgv "logging" Value.vnull with
      | .vdict items =>
          if (assocFind items "version").isSome then
            some (dictConfig (.vdict items) state)
          else none
      | _ => none
    else none
  match schemaResult with
  | some (Except.ok newState) => (newState, name)
  | some (Except.error _) => manualGlobalSetup cfgv name state
  | none => manualGlobalSetup cfgv name state

/-- C7: when the logging section carries a version marker and applying it as
a declarative schema fails for any reason, the bridge builds the default
console (+ optional rotating file) pipeline via the manual branch instead of
leaving logging unconfigured, and the failure is not propagated (the result
is the manual pipeline, independent of the error). -/
theorem c7_schema_failure_fallback (cfgv : Value) (serviceName : Option String)
    (state : LogState) (dictConfig : Value → LogState → Except String LogState)
    (items : List (String × Value)) (e : String)
    (hsec : configGet cfgv "logging" Value.vnull = .vdict items)
    (hver : (assocFind items "version").isSome)
    (hfail : dictConfig (.vdict items) state = .error e) :
    setupGlobalLogger cfgv serviceName true dictConfig state
      = manualGlobalSetup cfgv
          (match serviceName with
           | some n => n
           | none => pyStr (configGet cfgv "application.name" (Value.vstr "utils-service")))
          state
    ∧ (getLoggerState (setupGlobalLogger cfgv serviceName true dictConfig state).1
        (setupGlobalLogger cfgv serviceName true dictConfig state).2).handlers
      = mkHandlers (setupGlobalLogger cfgv serviceName true dictConfig state).2
          (isTruthy (configGet cfgv "logging.json_format" (Value.vbool false)))
          (pyOr (configGet cfgv "logging.file" Value.vnull)
            (configGet cfgv "paths.logs.file" Value.vnull))
          (10 * 1024 * 1024) 5 [] := by
  have hmain : setupGlobalLogger cfgv serviceName true dictConfig state
      = manualGlobalSetup cfgv
          (match serviceName with
           | some n => n
           | none => pyStr (configGet cfgv "application.name" (Value.vstr "utils-service")))
          state := by
    unfold setupGlobalLogger
    rw [hsec]
    simp [hver, hfail]
  refine ⟨hmain, ?_⟩
  rw [hmain]
  unfold manualGlobalSetup setupLogging
  simp only [getLoggerState_set_same]

/-- Concrete instantiation of `c7_schema_failure_fallback`: a versioned
logging schema whose application fails falls back to the default console
pipeline. -/
theorem c7_schema_failure_fallback_witness :
    setupGlobalLogger
        (Value.vdict [("logging", Value.vdict [("version", Value.vint 1)])])
        (some "svc") true (fun _ _ => Except.error "bad handler class") []
      = manualGlobalSetup
          (Value.vdict [("logging", Value.vdict [("version", Value.vint 1)])]) "svc" [] :=
  (c7_schema_failure_fallback
    (Value.vdict [("logging", Value.vdict [("version", Value.vint 1)])])
    (some "svc") [] (fun _ _ => Except.error "bad handler class")
    [("version", Value.vint 1)] "bad handler class" rfl rfl rfl).1

/-- The service-name computation of `setup_global_logger` (lines 236-239):
an explicit override wins, otherwise `config.get('application.name',
'utils-service')`. -/
def effectiveServiceName (cfgv : Value) (serviceName : Option String) : Value :=
  match serviceName with
  | some n => .vstr n
  | none => configGet cfgv "application.name" (.vstr "utils-service")

/-- C8 counterexample: with only `service.name` set, the effective name is
the built-in default, not the `service.name` value, and an empty-string
`application.name` wins over the default (so the chain is neither
`application.name` then `service.name`, nor first-non-empty). -/
theorem c8_counterexample :
    effectiveServiceName
        (Value.vdict [("service", Value.vdict [("name", Value.vstr "svc")])]) none
      = Value.vstr "utils-service"
    ∧ Value.vstr "utils-service" ≠ Value.vstr "svc"
    ∧ effectiveServiceName
        (Value.vdict [("application", Value.vdict [("name", Value.vstr "")])]) none
      = Value.vstr "" := by
  refine ⟨rfl, ?_, rfl⟩
  intro h
  exact absurd (Value.vstr.inj h) (by decide)

/-- C8 (amended): when no explicit service name is supplied, the effective
service name is exactly `config.get('application.name', 'utils-service')`:
the value stored at `application.name` when the traversal succeeds with a
non-null value (the empty string included), else the literal default;
the reserved key `service.name` is never consulted, so changing the whole
`service` subtree never changes the result. -/
theorem c8_service_name_source (cfgv : Value) (items : List (String × Value)) (sv : Value) :
    (∀ n, effectiveServiceName cfgv (some n) = .vstr n)
    ∧ effectiveServiceName cfgv none
        = configGet cfgv "application.name" (.vstr "utils-service")
    ∧ effectiveServiceName (.vdict (setItem items "service" sv)) none
        = effectiveServiceName (.vdict items) none := by
  refine ⟨fun n => rfl, rfl, ?_⟩
  show configGetGo (Value.vstr "utils-service") (Value.vdict (setItem items "service" sv))
      ["application".data, "name".data]
    = configGetGo (Value.vstr "utils-service") (Value.vdict items)
      ["application".data, "name".data]
  have h : assocFind (setItem items "service" sv) "application"
      = assocFind items "application" :=
    assocFind_setItem_other items sv (by decide)
  simp only [configGetGo, stringMkData "application", h]

/-! ### `Config.set` -/

/-- The loop of `Config.set`: walk all but the last key, creating an empty
mapping for a missing segment; an existing segment is entered whatever it
holds; the final assignment writes into the reached object.  In Python,
entering or assigning into a non-dict raises `TypeError` (for every value
shape: non-container membership tests raise, and item assignment on lists,
strings and scalars raises for string keys), modelled as `none`. -/
def setPathGo : Value → List (List Char) → Value → Option Value
  | cur, [k], v =>
      match cur with
      | .vdict items => some (.vdict (setItem items (String.mk k) v))
      | _ => none
  | cur, k :: ks, v =>
      match cur with
      | .vdict items =>
          match setPathGo ((assocFind items (String.mk k)).getD (.vdict [])) ks v with
          | some child => some (.vdict (setItem items (String.mk k) child))
          | none => none
      | _ => none
  | _, [], _ => none

/-- `Config.set(key_path, value)` on the held tree. -/
def configSet (root : Value) (keyPath : String) (v : Value) : Option Value :=
  setPathGo root (splitDots keyPath.data) v

/-- All intermediate segments can be traversed by `set`: each is either
absent (an empty mapping is created) or holds a mapping, and the final
container is a mapping. -/
def canSet : Value → List (List Char) → Bool
  | cur, [_] =>
      match cur with
      | .vdict _ => true
      | _ => false
  | cur, k :: ks =>
      match cur with
      | .vdict items => canSet ((assocFind items (String.mk k)).getD (.vdict [])) ks
      | _ => false
  | _, [] => false

/-- C9 counterexample: with `a` holding the scalar `5`, `set("a.b", 1)`
raises (`none`) instead of replacing the scalar by a created mapping, so
intermediate mappings are not created over non-mapping values. -/
theorem c9_counterexample :
    configSet (Value.vdict [("a", Value.vint 5)]) "a.b" (Value.vint 1) = none
    ∧ configSet (Value.vdict [("a", Value.vint 5)]) "a.b.c" (Value.vint 1) = none := by
  exact ⟨rfl, rfl⟩

theorem setPathGo_lookup :
    ∀ (ks : List (List Char)) (root t' v : Value), ks ≠ [] →
      setPathGo root ks v = some t' → lookupKeys t' ks = some v := by
  intro ks
  induction ks with
  | nil => intro root t' v hne _; exact absurd rfl hne
  | cons k ks ih =>
      intro root t' v _ hset
      cases ks with
      | nil =>
          cases root with
          | vdict items =>
              simp only [setPathGo, Option.some.injEq] at hset
              rw [← hset]
              simp [lookupKeys, assocFind_setItem_same]
          | vnull => simp [setPathGo] at hset
          | vbool b => simp [setPathGo] at hset
          | vint n => simp [setPathGo] at hset
          | vstr s => simp [setPathGo] at hset
          | vlist xs => simp [setPathGo] at hset
      | cons k₂ ks₂ =>
          cases root with
          | vdict items =>
              simp only [setPathGo] at hset
              cases hchild : setPathGo ((assocFind items (String.mk k)).getD (.vdict []))
                  (k₂ :: ks₂) v with
              | none => rw [hchild] at hset; simp at hset
              | some child =>
                  rw [hchild] at hset
                  simp only [Option.some.injEq] at hset
                  rw [← hset]
                  have hrec := ih _ child v (by simp) hchild
                  simp only [lookupKeys, assocFind_setItem_same]
                  exact hrec
          | vnull => simp [setPathGo] at hset
          | vbool b => simp [setPathGo] at hset
          | vint n => simp [setPathGo] at hset
          | vstr s => simp [setPathGo] at hset
          | vlist xs => simp [setPathGo] at hset

theorem canSet_isSome :
    ∀ (ks : List (List Char)) (root v : Value), canSet root ks = true →
      (setPathGo root ks v).isSome := by
  intro ks
  induction ks with
  | nil => intro root v h; simp [canSet] at h
  | cons k ks ih =>
      intro root v h
      cases ks with
      | nil =>
          cases root with
          | vdict items => simp [setPathGo]
          | vnull => simp [canSet] at h
          | vbool b => simp [canSet] at h
          | vint n => simp [canSet] at h
          | vstr s => simp [canSet] at h
          | vlist xs => simp [canSet] at h
      | cons k₂ ks₂ =>
          cases root with
          | vdict items =>
              simp only [canSet] at h
              have := ih ((assocFind items (String.mk k)).getD (.vdict [])) v h
              cases hchild : setPathGo ((assocFind items (String.mk k)).getD (.vdict []))
                  (k₂ :: ks₂) v with
              | none => rw [hchild] at this; simp at this
              | some child => simp [setPathGo, hchild]
          | vnull => simp [canSet] at h
          | vbool b => simp [canSet] at h
          | vint n => simp [canSet] at h
          | vstr s => simp [canSet] at h
          | vlist xs => simp [canSet] at h

/-- C9 (amended): `set(p, v)` creates an intermediate mapping for each
missing intermediate segment and succeeds whenever every present segment on
the path holds a mapping, after which the tree holds `v` at `p`; but when an
intermediate (or final) segment holds a non-mapping value it raises
`TypeError` instead of replacing it (see `c9_counterexample`); nothing is
persisted to disk (the operation is a pure tree update). -/
theorem c9_set_creates_intermediates (root v t' : Value) (keyPath : String)
    (hset : configSet root keyPath v = some t') :
    lookupKeys t' (splitDots keyPath.data) = some v := by
  refine setPathGo_lookup (splitDots keyPath.data) root t' v (splitDots_ne_nil _) hset

/-- Concrete instantiation of `c9_set_creates_intermediates`: setting
`a.b.c` over `{a: \x7b\x7d}` creates the missing `b` level and stores the
value; `canSet` certifies the success that the theorem consumes. -/
theorem c9_set_creates_intermediates_witness :
    configSet (Value.vdict [("a", Value.vdict [])]) "a.b.c" (Value.vint 7)
      = some (Value.vdict [("a", Value.vdict [("b", Value.vdict [("c", Value.vint 7)])])])
    ∧ lookupKeys (Value.vdict [("a", Value.vdict [("b", Value.vdict [("c", Value.vint 7)])])])
        (splitDots "a.b.c".data) = some (Value.vint 7) :=
  ⟨rfl, c9_set_creates_intermediates (Value.vdict [("a", Value.vdict [])]) (Value.vint 7)
    (Value.vdict [("a", Value.vdict [("b", Value.vdict [("c", Value.vint 7)])])]) "a.b.c" rfl⟩

/-! ### `Config.has` versus `Config.get` on stored nulls -/

/-- C10: `has` and `get` can disagree at the same dot path: when the
traversal succeeds through mappings and the stored value is null, `has`
returns `true` while `get` returns the default; `get` returns the stored
value itself exactly when that value is non-null. -/
theorem c10_has_get_null_disagreement (root : Value) (keyPath : String) (dflt : Value) :
    (lookupKeys root (splitDots keyPath.data) = some Value.vnull →
        configHas root keyPath = true ∧ configGet root keyPath dflt = dflt)
    ∧ (∀ v, lookupKeys root (splitDots keyPath.data) = some v → v ≠ Value.vnull →
        configGet root keyPath dflt = v
        ∧ configHas root keyPath = true) := by
  have main : ∀ (ks : List (List Char)) (cur : Value), ks ≠ [] →
      (lookupKeys cur ks = some Value.vnull →
        configHasGo cur ks = true ∧ configGetGo dflt cur ks = dflt)
      ∧ (∀ v, lookupKeys cur ks = some v → v ≠ Value.vnull →
        configGetGo dflt cur ks = v ∧ configHasGo cur ks = true) := by
    intro ks
    induction ks with
    | nil => intro cur h; exact absurd rfl h
    | cons k ks ih =>
        intro cur _
        cases cur with
        | vdict items =>
            cases hfind : assocFind items (String.mk k) with
            | none =>
                constructor
                · intro hlk
                  simp [lookupKeys, hfind] at hlk
                · intro v hlk
                  simp [lookupKeys, hfind] at hlk
            | some w =>
                cases ks with
                | nil =>
                    constructor
                    · intro hlk
                      simp only [lookupKeys, hfind] at hlk
                      have hw : w = Value.vnull := Option.some.inj hlk
                      subst hw
                      refine ⟨by simp [configHasGo, hfind], ?_⟩
                      simp [configGetGo, hfind, Value.isNull]
                    · intro v hlk hv
                      simp only [lookupKeys, hfind] at hlk
                      have hw : w = v := Option.some.inj hlk
                      subst hw
                      have hnn : w.isNull = false := isNull_eq_false_iff.2 hv
                      refine ⟨?_, by simp [configHasGo, hfind]⟩
                      simp [configGetGo, hfind, hnn]
                | cons k₂ ks₂ =>
                    have hrec := ih w (by simp)
                    constructor
                    · intro hlk
                      simp only [lookupKeys, hfind] at hlk
                      have hwn : w ≠ Value.vnull := by
                        intro hw
                        subst hw
                        simp [lookupKeys] at hlk
                      have hnn : w.isNull = false := isNull_eq_false_iff.2 hwn
                      obtain ⟨hhas, hget⟩ := hrec.1 hlk
                      constructor
                      · simp only [configHasGo, hfind]
                        exact hhas
                      · simp only [configGetGo, hfind, hnn, Bool.false_eq_true, if_false]
                        exact hget
                    · intro v hlk hv
                      simp only [lookupKeys, hfind] at hlk
                      have hwn : w ≠ Value.vnull := by
                        intro hw
                        subst hw
                        simp [lookupKeys] at hlk
                      have hnn : w.isNull = false := isNull_eq_false_iff.2 hwn
                      obtain ⟨hget, hhas⟩ := hrec.2 v hlk hv
                      constructor
                      · simp only [configGetGo, hfind, hnn, Bool.false_eq_true, if_false]
                        exact hget
                      · simp only [configHasGo, hfind]
                        exact hhas
        | vnull =>
            constructor
            · intro hlk; simp [lookupKeys] at hlk
            · intro v hlk; simp [lookupKeys] at hlk
        | vbool b =>
            constructor
            · intro hlk; simp [lookupKeys] at hlk
            · intro v hlk; simp [lookupKeys] at hlk
        | vint n =>
            constructor
            · intro hlk; simp [lookupKeys] at hlk
            · intro v hlk; simp [lookupKeys] at hlk
        | vstr s =>
            constructor
            · intro hlk; simp [lookupKeys] at hlk
            · intro v hlk; simp [lookupKeys] at hlk
        | vlist xs =>
            constructor
            · intro hlk; simp [lookupKeys] at hlk
            · intro v hlk; simp [lookupKeys] at hlk
  have h := main (splitDots keyPath.data) root (splitDots_ne_nil _)
  exact ⟨fun hlk => h.1 hlk, fun v hlk hv => h.2 v hlk hv⟩

/-- Concrete instantiation of `c10_has_get_null_disagreement`: a stored null
at `db.host` makes `has` true while `get` falls back to the default. -/
theorem c10_has_get_null_disagreement_witness :
    configHas (Value.vdict [("db", Value.vdict [("host", Value.vnull)])]) "db.host" = true
    ∧ configGet (Value.vdict [("db", Value.vdict [("host", Value.vnull)])]) "db.host"
        (Value.vstr "fallback") = Value.vstr "fallback" :=
  (c10_has_get_null_disagreement
    (Value.vdict [("db", Value.vdict [("host", Value.vnull)])]) "db.host"
    (Value.vstr "fallback")).1 rfl
